import Mathlib

/-!
Verification of the translation converter's flatten/unflatten transform and
table reconciliation logic (`scripts/json_to_excel.py`, `scripts/excel_to_json.py`).

Modelling choices:
* A hierarchical document is the two-variant tree of the data model: a leaf
  string or an object node.  Python `dict`s are insertion-ordered association
  lists; `dict(items)` and `d[k] = v` are modelled by `pyDictOfList` and
  `assocUpdate`, which keep the first-insertion position of a key and let a
  later assignment overwrite its value.
* Python `str.strip('"')` removes every leading and trailing quote character;
  `key.split('.')` splits on every dot, keeping empty fragments; both are
  modelled character-exactly on `String.data`.
* `unflatten_dict` can raise `TypeError` when the walk for a longer key meets
  a string leaf created by a shorter key (`current[part] = {}` or
  `current = current[part]` on a `str`); the model returns `Option`, with
  `none` for the raised exception.
-/

namespace TC

/-- The double-quote character stripped by `flatten_dict` (`str.strip('"')`). -/
def dq : Char := Char.ofNat 34

/-- Hierarchical document value: a leaf translation string or a nested object,
whose entries form an insertion-ordered Python dict. -/
inductive JVal where
  | str (s : String)
  | obj (entries : List (String × JVal))
deriving Repr

/-- Python `d.get(k)` / `k in d`: first binding of `k` in the dict. -/
def assocFind (l : List (String × α)) (k : String) : Option α :=
  match l with
  | [] => none
  | (k', v) :: rest => if k' = k then some v else assocFind rest k

/-- Python `d[k] = v`: overwrite the value at `k` in place if present,
otherwise append the new binding at the end. -/
def assocUpdate (l : List (String × α)) (k : String) (v : α) : List (String × α) :=
  match l with
  | [] => [(k, v)]
  | (k', v') :: rest => if k' = k then (k, v) :: rest else (k', v') :: assocUpdate rest k v

/-- Python `dict(items)`: insert the pairs left to right, so a key keeps its
first position and its last value. -/
def pyDictOfList (items : List (String × α)) : List (String × α) :=
  items.foldl (fun acc kv => assocUpdate acc kv.1 kv.2) []

/-- Python `str.strip('"')` on the character list: drop every leading and
every trailing double-quote character. -/
def pyStripChars (cs : List Char) : List Char :=
  ((cs.dropWhile (· = dq)).reverse.dropWhile (· = dq)).reverse

/-- Python `str(v).strip('"')` for a string leaf `v` (`str` is the identity
on strings). -/
def pyStrip (s : String) : String :=
  String.mk (pyStripChars s.data)

/-- Python `s.split('.')` on the character list: split at every dot, keeping
empty fragments; the result is never empty. -/
def splitChars : List Char → List (List Char)
  | [] => [[]]
  | c :: rest =>
      if c = '.' then [] :: splitChars rest
      else
        match splitChars rest with
        | [] => [[c]]
        | s :: ss => (c :: s) :: ss

/-- Python `key.split('.')`. -/
def pySplit (s : String) : List String :=
  (splitChars s.data).map String.mk

/-- Dot-joining of segment character lists, the inverse direction of
`splitChars`. -/
def joinChars : List (List Char) → List Char
  | [] => []
  | [s] => s
  | s :: rest => s ++ '.' :: joinChars rest

/-- Dot-joining of string segments (used to state key/path correspondences). -/
def dotJoin (segs : List String) : String :=
  String.mk (joinChars (segs.map String.data))

/-- `flatten_dict` (json_to_excel.py): the `items` list accumulated by the
loop, before the final `dict(items)`.  `new_key` is
`f"{parent_key}{sep}{k}" if parent_key else k` with `sep = '.'`; a nested
dict contributes `flatten_dict(v, new_key).items()`, a leaf contributes
`str(v).strip('"')`. -/
def flatten_items : List (String × JVal) → String → List (String × String)
  | [], _ => []
  | (k, v) :: rest, parentKey =>
      let newKey := if parentKey = "" then k else parentKey ++ "." ++ k
      (match v with
       | .str s => [(newKey, pyStrip s)]
       | .obj es => pyDictOfList (flatten_items es newKey)) ++ flatten_items rest parentKey

/-- `flatten_dict(d, parent_key)` (json_to_excel.py): `dict(items)`. -/
def flatten_dict (d : List (String × JVal)) (parentKey : String) : List (String × String) :=
  pyDictOfList (flatten_items d parentKey)

/-- One assignment `current = nested; walk parts[:-1]; current[parts[-1]] = value`
of `unflatten_dict`.  The first segment is `part`, the remaining ones `rest`.
Walking into an existing string leaf raises `TypeError` in Python
(`current[part] = {}`, `current = current[part]` or the final
`current[parts[-1]] = value` on a `str`), modelled as `none`. -/
def setPath (tree : List (String × JVal)) (part : String) (rest : List String)
    (value : String) : Option (List (String × JVal)) :=
  match rest with
  | [] => some (assocUpdate tree part (.str value))
  | part2 :: rest2 =>
      match assocFind tree part with
      | none =>
          match setPath [] part2 rest2 value with
          | none => none
          | some sub => some (assocUpdate tree part (.obj sub))
      | some (.obj sub) =>
          match setPath sub part2 rest2 value with
          | none => none
          | some sub' => some (assocUpdate tree part (.obj sub'))
      | some (.str _) => none

/-- The loop of `unflatten_dict` over the remaining `(key, value)` pairs,
with `acc` the `nested_dict` built so far. -/
def unflattenAux : List (String × JVal) → List (String × String) → Option (List (String × JVal))
  | acc, [] => some acc
  | acc, (key, value) :: rest =>
      if value = "" then unflattenAux acc rest
      else
        match pySplit key with
        | [] => unflattenAux acc rest
        | p :: ps =>
            match setPath acc p ps value with
            | none => none
            | some acc' => unflattenAux acc' rest

/-- `unflatten_dict` (excel_to_json.py) with the default separator `'.'`;
`none` models the escape of a `TypeError` out of the function. -/
def unflatten_dict (flat : List (String × String)) : Option (List (String × JVal)) :=
  unflattenAux [] flat

mutual

/-- The leaf entries of a document value as (path, stripped value) pairs, in
traversal order: what `flatten_dict` emits for that value below its key. -/
def pathsOfVal : JVal → List (List String × String)
  | .str s => [([], pyStrip s)]
  | .obj es => pathsOfE es

/-- The leaf entries of an entry list as (path, stripped value) pairs. -/
def pathsOfE : List (String × JVal) → List (List String × String)
  | [] => []
  | (k, v) :: rest => (pathsOfVal v).map (fun pv => (k :: pv.1, pv.2)) ++ pathsOfE rest

end

/-- The key `flatten_dict` builds for a path below `parentKey`
(`f"{parent_key}{sep}{k}" if parent_key else k`, iterated). -/
def joinKey (parentKey : String) (p : List String) : String :=
  if parentKey = "" then dotJoin p else parentKey ++ "." ++ dotJoin p

/-- One `unflatten_dict` iteration at the segment-path level: skip an empty
value, otherwise walk/create along the path and set the leaf. -/
def insertPath (T : List (String × JVal)) (pv : List String × String) :
    Option (List (String × JVal)) :=
  if pv.2 = "" then some T
  else
    match pv.1 with
    | [] => some T
    | p :: ps => setPath T p ps pv.2

/-- The `unflatten_dict` loop at the segment-path level. -/
def foldInsert : List (String × JVal) → List (List String × String) →
    Option (List (String × JVal))
  | T, [] => some T
  | T, pv :: rest =>
      match insertPath T pv with
      | none => none
      | some T' => foldInsert T' rest

mutual

/-- Boolean equality on document values. -/
def JVal.beqV : JVal → JVal → Bool
  | .str s, .str t => s == t
  | .obj es, .obj fs => JVal.beqE es fs
  | _, _ => false

/-- Boolean equality on object entry lists. -/
def JVal.beqE : List (String × JVal) → List (String × JVal) → Bool
  | [], [] => true
  | (k, v) :: r, (k', v') :: r' => k == k' && JVal.beqV v v' && JVal.beqE r r'
  | _, _ => false

end

mutual

theorem JVal.beqV_iff : ∀ a b, JVal.beqV a b = true ↔ a = b
  | .str s, .str t => by simp [JVal.beqV]
  | .str _, .obj _ => by simp [JVal.beqV]
  | .obj _, .str _ => by simp [JVal.beqV]
  | .obj es, .obj fs => by simp [JVal.beqV, JVal.beqE_iff es fs]

theorem JVal.beqE_iff : ∀ es fs, JVal.beqE es fs = true ↔ es = fs
  | [], [] => by simp [JVal.beqE]
  | [], _ :: _ => by simp [JVal.beqE]
  | _ :: _, [] => by simp [JVal.beqE]
  | (k, v) :: r, (k', v') :: r' => by
      simp [JVal.beqE, JVal.beqV_iff v v', JVal.beqE_iff r r', and_assoc]

end

instance : DecidableEq JVal := fun a b => decidable_of_iff _ (JVal.beqV_iff a b)

/-! ### Well-formedness of hierarchical documents

`goodEntries` captures the spec's data model for a hierarchical document as
actually required for a faithful round trip: segment names are non-empty and
dot-free, each object's keys are distinct (they come from a Python dict),
nested objects are non-empty, and every leaf is a non-empty string that the
quote-strip of `flatten_dict` leaves unchanged. -/

/-- A segment name: non-empty and containing no separator dot. -/
def keyOk (k : String) : Bool :=
  decide (k ≠ "") && decide ('.' ∉ k.data)

mutual

/-- Well-formedness of a document value. -/
def goodVal : JVal → Bool
  | .str s => decide (s ≠ "") && decide (pyStrip s = s)
  | .obj es => decide (es ≠ []) && goodEntries es

/-- Well-formedness of an object's entry list. -/
def goodEntries : List (String × JVal) → Bool
  | [] => true
  | (k, v) :: rest =>
      keyOk k && decide (k ∉ rest.map Prod.fst) && goodVal v && goodEntries rest

end

mutual

/-- No leaf of the value is the empty string. -/
def noEmptyLeafVal : JVal → Bool
  | .str s => s != ""
  | .obj es => noEmptyLeafEntries es

/-- No leaf below any entry is the empty string. -/
def noEmptyLeafEntries : List (String × JVal) → Bool
  | [] => true
  | (_, v) :: rest => noEmptyLeafVal v && noEmptyLeafEntries rest

end

mutual

/-- The segment paths leading from a value to its string leaves (`[]` if the
value itself is a leaf). -/
def leafPathsVal : JVal → List (List String)
  | .str _ => [[]]
  | .obj es => leafPathsE es

/-- The segment paths leading from an entry list to its string leaves. -/
def leafPathsE : List (String × JVal) → List (List String)
  | [] => []
  | (k, v) :: rest => (leafPathsVal v).map (k :: ·) ++ leafPathsE rest

end

/-- `short` followed by a dot is an initial run of `long`: the string `long`
extends the string `short` by a `'.'` and some tail, i.e. `short` is a proper
`'.'`-prefix of `long` (see `listLeads_iff`). -/
def listLeads : List Char → List Char → Bool
  | [], [] => false
  | [], d :: _ => d == '.'
  | _ :: _, [] => false
  | c :: cs, d :: ds => c == d && listLeads cs ds

/-! ### Table building (`create_excel`, json_to_excel.py) -/

/-- Lexicographic comparison of character lists by code point, the order
Python uses to compare strings. -/
def charListLe : List Char → List Char → Bool
  | [], _ => true
  | _ :: _, [] => false
  | c :: cs, d :: ds => if c < d then true else if d < c then false else charListLe cs ds

/-- Python `a <= b` on strings. -/
def strLeB (a b : String) : Bool :=
  charListLe a.data b.data

/-- Python `sorted` on strings: stable merge sort by code-point order
(Lean's `String` order also compares `data` lexicographically by `Char`
value, see `strLeB_iff`). -/
def sortStrings (l : List String) : List String :=
  l.mergeSort strLeB

/-- All translation keys of all languages (`all_keys`, a Python set: one
occurrence of each key; iteration order is irrelevant because `create_excel`
sorts them). -/
def keyUnion (translations : List (String × List (String × String))) : List String :=
  (translations.flatMap (fun ld => ld.2.map Prod.fst)).dedup

/-- `lang_dict.get(key, '')`: the language's value for the key, or the empty
string when the key is absent. -/
def cellValue (d : List (String × String)) (k : String) : String :=
  (assocFind d k).getD ""

/-- `df_data` as built by `create_excel`: one row dict per key in
`sorted(all_keys)`, each holding `lang_dict.get(key, '')` for every language
in input order.  When `all_keys` is empty the loop body never runs and
`df_data` stays empty. -/
def df_data (translations : List (String × List (String × String))) :
    List (String × List (String × String)) :=
  (sortStrings (keyUnion translations)).map (fun k =>
    (k, translations.map (fun ld => (ld.1, cellValue ld.2 k))))

/-- Appearance-order accumulation of one key into the column list (pandas
adds a row dict's key to the columns the first time it is seen). -/
def appendNew (acc : List String) (a : String) : List String :=
  if a ∈ acc then acc else acc ++ [a]

/-- Appearance-order union of a list of keys. -/
def firstDedup (l : List String) : List String :=
  l.foldl appendNew []

/-- `df.columns.tolist()` for `pd.DataFrame.from_dict(df_data, orient='index')`:
the union of the row dicts' keys in order of first appearance.  With no rows
there are no columns at all. -/
def dfColumns (translations : List (String × List (String × String))) : List String :=
  firstDedup ((df_data translations).flatMap (fun row => row.2.map Prod.fst))

/-- The column order computed by `create_excel`: starting from the DataFrame's
columns, `cols.remove(priority_lang)` drops the first occurrence, and the
priority language is put in front of the rest sorted ascending; if absent,
all columns are sorted. -/
def create_excel_cols (translations : List (String × List (String × String)))
    (priority : String) : List String :=
  if priority ∈ dfColumns translations then
    priority :: sortStrings ((dfColumns translations).erase priority)
  else sortStrings (dfColumns translations)

/-- The rows of the sheet written by `create_excel`: one row per key in
`sorted(all_keys)`, and — after the column reindex `df = df[cols]` — one cell
per language in final column order, `lang_dict.get(key, '')` each. -/
def create_excel_rows (translations : List (String × List (String × String)))
    (priority : String) : List (String × List String) :=
  (sortStrings (keyUnion translations)).map (fun k =>
    (k, (create_excel_cols translations priority).map
          (fun lang => cellValue ((assocFind translations lang).getD []) k)))

/-! ### Table reading (`read_excel_to_translations`, excel_to_json.py)

A row of the sheet is its key plus one cell per column; a cell is
`Option String`, `none` standing for a blank cell, which pandas reads as NaN
(`pd.notna` is false exactly there).  `str(value)` is the identity on the
string cells kept. -/

/-- The dict comprehension
`{key: str(value) for key, value in df[lang_code].items() if pd.notna(value)}`
for the column at index `i`. -/
def langColumn (rows : List (String × List (Option String))) (i : Nat) :
    List (String × String) :=
  pyDictOfList (rows.filterMap (fun r =>
    match r.2.get? i with
    | some (some v) => some (r.1, v)
    | _ => none))

/-- `read_excel_to_translations`: one flattened set per column. -/
def read_excel_to_translations (cols : List String)
    (rows : List (String × List (Option String))) :
    List (String × List (String × String)) :=
  cols.enum.map (fun ic => (ic.2, langColumn rows ic.1))

/-! ### Language-code validation and the load/save loops -/

/-- `[a-z]` of the language-code pattern (ASCII range). -/
def isAsciiLower (c : Char) : Bool := ('a' ≤ c) && (c ≤ 'z')

/-- `[A-Z]` of the language-code pattern (ASCII range). -/
def isAsciiUpper (c : Char) : Bool := ('A' ≤ c) && (c ≤ 'Z')

/-- `re.match(r'^[a-z]{2}-[A-Z]{2}$', lang_code)` of
`save_translations_to_json`. -/
def isValidLangCode (s : String) : Bool :=
  match s.data with
  | [a, b, h, c, d] =>
      isAsciiLower a && isAsciiLower b && (h == '-') && isAsciiUpper c && isAsciiUpper d
  | _ => false

/-- `file.endswith('.json') and re.match(r'^[a-z]{2}-[A-Z]{2}\.json$', file)`
of `load_json_files` (the anchored pattern subsumes the `endswith`). -/
def isValidJsonName (f : String) : Bool :=
  match f.data with
  | [a, b, h, c, d, p, j, s, o, n] =>
      isAsciiLower a && isAsciiLower b && (h == '-') && isAsciiUpper c && isAsciiUpper d &&
      (p == '.') && (j == 'j') && (s == 's') && (o == 'o') && (n == 'n')
  | _ => false

/-- `file.replace('.json', '')` for a name matching the pattern: the first
five characters (a valid name contains `.json` exactly once, at the end). -/
def langCodeOf (f : String) : String :=
  String.mk (f.data.take 5)

/-- One iteration of the `load_json_files` loop.  A listing entry is a file
name plus its parse outcome (`none`: `json.load` raised, or the file was not
UTF-8).  The accumulator holds the `translations` dict and the list of file
names for which a diagnostic line was printed (the per-file warning for an
empty flattened result, or the per-file parse/encoding error).  A file name
failing the pattern is passed over by the `if` with no print at all. -/
def loadStep (validLangs : Option (List String))
    (acc : List (String × List (String × String)) × List String)
    (f : String) (content : Option (List (String × JVal))) :
    List (String × List (String × String)) × List String :=
  if isValidJsonName f then
    let code := langCodeOf f
    if (match validLangs with
        | none => true
        | some vl => vl.contains code) then
      match content with
      | some data =>
          let fl := flatten_dict data ""
          (assocUpdate acc.1 code fl, acc.2 ++ (if fl.isEmpty then [f] else []))
      | none => (acc.1, acc.2 ++ [f])
    else acc
  else acc

/-- The loop of `load_json_files` over the directory listing. -/
def loadAux (validLangs : Option (List String))
    (acc : List (String × List (String × String)) × List String) :
    List (String × Option (List (String × JVal))) →
    List (String × List (String × String)) × List String
  | [] => acc
  | (f, content) :: rest => loadAux validLangs (loadStep validLangs acc f content) rest

/-- `load_json_files(lang_dir, valid_langs)`, over the listing of an existing
directory. -/
def load_json_files (files : List (String × Option (List (String × JVal))))
    (validLangs : Option (List String)) :
    List (String × List (String × String)) × List String :=
  loadAux validLangs ([], []) files

/-- The loop of `save_translations_to_json` over the languages.  The
accumulator holds the documents written so far and the language codes for
which the `Skipping invalid language code` diagnostic was printed.  A
`TypeError` escaping `unflatten_dict` aborts the whole run (it is raised
outside the `try` that guards only the file write), modelled as `none`. -/
def saveAux (acc : List (String × List (String × JVal)) × List String) :
    List (String × List (String × String)) →
    Option (List (String × List (String × JVal)) × List String)
  | [] => some acc
  | (lang, flat) :: rest =>
      if isValidLangCode lang then
        match unflatten_dict flat with
        | some nested => saveAux (acc.1 ++ [(lang, nested)], acc.2) rest
        | none => none
      else saveAux (acc.1, acc.2 ++ [lang]) rest

/-- `save_translations_to_json(translations, output_dir)`: the documents
written (in order) and the skipped-language diagnostics. -/
def save_translations_to_json (ts : List (String × List (String × String))) :
    Option (List (String × List (String × JVal)) × List String) :=
  saveAux ([], []) ts

/-! ### The quote strip of `flatten_dict` -/

theorem head?_dropWhile_false {α : Type} (p : α → Bool) :
    ∀ (l : List α) {x : α}, (l.dropWhile p).head? = some x → p x = false := by
  intro l
  induction l with
  | nil => intro x h; simp [List.dropWhile] at h
  | cons c rest ih =>
      intro x h
      by_cases hc : p c
      · rw [List.dropWhile_cons_of_pos hc] at h
        exact ih h
      · rw [List.dropWhile_cons_of_neg hc] at h
        simp at h
        subst h
        exact Bool.eq_false_iff.mpr hc

theorem takeWhile_eq_quote_replicate (cs : List Char) :
    cs.takeWhile (· = dq) = List.replicate (cs.takeWhile (· = dq)).length dq := by
  apply List.eq_replicate_length.mpr
  intro b hb
  have := List.mem_takeWhile_imp hb
  exact of_decide_eq_true this

theorem exists_replicate_of_all_quote (l : List Char) (h : ∀ x ∈ l, x = dq) :
    ∃ n, l = List.replicate n dq :=
  ⟨l.length, List.eq_replicate_length.mpr h⟩

/-- Python's strip removes every enclosing quote: the original character list
is a run of quotes, then the stripped list, then a run of quotes. -/
theorem pyStripChars_decomp (cs : List Char) :
    ∃ a b, cs = List.replicate a dq ++ pyStripChars cs ++ List.replicate b dq := by
  obtain ⟨a, ha⟩ := exists_replicate_of_all_quote (cs.takeWhile (· = dq)) (by
    intro x hx
    have h1 := List.mem_takeWhile_imp hx
    exact of_decide_eq_true h1)
  obtain ⟨b, hb⟩ := exists_replicate_of_all_quote
    (((cs.dropWhile (· = dq)).reverse.takeWhile (· = dq)).reverse) (by
    intro x hx
    have h1 := List.mem_takeWhile_imp (List.mem_reverse.mp hx)
    exact of_decide_eq_true h1)
  refine ⟨a, b, ?_⟩
  rw [← ha, ← hb]
  have hD : cs.dropWhile (· = dq) =
      pyStripChars cs ++ ((cs.dropWhile (· = dq)).reverse.takeWhile (· = dq)).reverse := by
    conv_lhs => rw [← List.reverse_reverse (cs.dropWhile (· = dq))]
    conv_lhs => rw [← List.takeWhile_append_dropWhile (· = dq)
      (cs.dropWhile (· = dq)).reverse]
    rw [List.reverse_append]
    rfl
  conv_lhs => rw [← List.takeWhile_append_dropWhile (· = dq) cs, hD]
  rw [List.append_assoc]

theorem pyStripChars_head (cs : List Char) :
    ∀ x, (pyStripChars cs).head? = some x → x ≠ dq := by
  intro x h
  rw [pyStripChars, List.head?_reverse] at h
  set X := (cs.dropWhile (· = dq)).reverse.dropWhile (· = dq) with hX
  -- the last element of `X` is the last element of the reversed list it is a
  -- final segment of, i.e. the head of `cs.dropWhile (· = dq)`
  have hsplit : (cs.dropWhile (· = dq)).reverse =
      (cs.dropWhile (· = dq)).reverse.takeWhile (· = dq) ++ X :=
    (List.takeWhile_append_dropWhile ..).symm
  have hlast : (cs.dropWhile (· = dq)).reverse.getLast? = some x := by
    rw [hsplit, List.getLast?_append, h]
    rfl
  rw [List.getLast?_reverse] at hlast
  have := head?_dropWhile_false (· = dq) cs hlast
  intro hx
  rw [hx] at this
  simp at this

theorem pyStripChars_getLast (cs : List Char) :
    ∀ x, (pyStripChars cs).getLast? = some x → x ≠ dq := by
  intro x h
  rw [pyStripChars, List.getLast?_reverse] at h
  have := head?_dropWhile_false (· = dq) (cs.dropWhile (· = dq)).reverse h
  intro hx
  rw [hx] at this
  simp at this

/-- `flatten_dict` on a one-leaf document: the single entry keeps the key and
stores the stripped value. -/
theorem flatten_single (k s : String) :
    flatten_dict [(k, JVal.str s)] "" = [(k, pyStrip s)] := by
  simp [flatten_dict, flatten_items, pyDictOfList, assocUpdate]

set_option maxRecDepth 40000 in
unseal flatten_items in
/-- C2 counterexample: the quote strip of `flatten_dict` is not applied only
once: a leaf holding two layers of quotes around `hello` flattens to the bare
`hello`, not to the claimed inner layer `"hello"`. -/
theorem C2_counterexample :
    flatten_dict [("k", JVal.str "\"\"hello\"\"")] "" = [("k", "hello")] ∧
    ("hello" : String) ≠ "\"hello\"" := by
  constructor
  · decide
  · decide

/-- C2 (amended): for every leaf, `flatten_dict` emits the leaf's string with
ALL enclosing literal double-quote characters stripped from the two ends (the
strip repeats until no enclosing quote remains, so a two-layer-quoted value
loses both layers): the emitted value has no leading or trailing quote, and
the original leaf is the emitted value surrounded by runs of quotes. -/
theorem C2_amended (k s : String) :
    flatten_dict [(k, JVal.str s)] "" = [(k, pyStrip s)] ∧
    (∃ a b, s.data = List.replicate a dq ++ (pyStrip s).data ++ List.replicate b dq) ∧
    (∀ x, (pyStrip s).data.head? = some x → x ≠ dq) ∧
    (∀ x, (pyStrip s).data.getLast? = some x → x ≠ dq) :=
  ⟨flatten_single k s, pyStripChars_decomp s.data,
   pyStripChars_head s.data, pyStripChars_getLast s.data⟩

/-- C2 witness: the amended statement applied to the leaf `"hello"`, whose
flattened value is the bare `hello`. -/
theorem C2_amended_witness :
    flatten_dict [("k", JVal.str "\"hello\"")] "" = [("k", pyStrip "\"hello\"")] ∧
    ∃ a b, ("\"hello\"" : String).data =
      List.replicate a dq ++ (pyStrip "\"hello\"").data ++ List.replicate b dq :=
  ⟨(C2_amended "k" "\"hello\"").1, (C2_amended "k" "\"hello\"").2.1⟩

set_option maxRecDepth 40000 in
unseal flatten_items in
/-- C4 counterexample: the flattened translation set produced by
`flatten_dict` CAN contain an entry whose value is the empty string: a
document with an empty-string leaf flattens to an entry storing the empty
string rather than dropping it. -/
theorem C4_counterexample : ("a", "") ∈ flatten_dict [("a", JVal.str "")] "" := by
  have h : flatten_dict [("a", JVal.str "")] "" = [("a", "")] := by decide
  rw [h]
  exact List.mem_singleton.mpr rfl

/-- C4 (amended): `flatten_dict` does not drop empty leaves: a leaf whose
quote-stripped string form is empty is stored as an entry whose value is the
empty string (the dropping of empties happens only later, in
`unflatten_dict`). -/
theorem C4_amended (k s : String) (h : pyStrip s = "") :
    flatten_dict [(k, JVal.str s)] "" = [(k, "")] := by
  rw [flatten_single k s, h]

/-- C4 witness: the amended statement applied to an all-quotes leaf. -/
theorem C4_amended_witness :
    pyStrip "\"\"" = "" ∧ flatten_dict [("a", JVal.str "\"\"")] "" = [("a", "")] :=
  ⟨by decide, C4_amended "a" "\"\"" (by decide)⟩

/-! ### Splitting and joining dotted keys -/

theorem mk_data (s : String) : String.mk s.data = s := rfl

theorem splitChars_ne_nil (cs : List Char) : splitChars cs ≠ [] := by
  cases cs with
  | nil => simp [splitChars]
  | cons c rest =>
      rw [splitChars]
      by_cases hc : c = '.'
      · simp [hc]
      · rw [if_neg hc]
        cases h : splitChars rest <;> simp

theorem joinChars_cons (x : List Char) (xs : List (List Char)) (h : xs ≠ []) :
    joinChars (x :: xs) = x ++ '.' :: joinChars xs := by
  cases xs with
  | nil => exact absurd rfl h
  | cons y ys => rfl

theorem splitChars_nodot (cs : List Char) (h : '.' ∉ cs) : splitChars cs = [cs] := by
  induction cs with
  | nil => rfl
  | cons c rest ih =>
      rw [splitChars, if_neg (by intro hc; exact h (hc ▸ List.mem_cons_self c rest)),
        ih (fun hm => h (List.mem_cons_of_mem c hm))]

theorem splitChars_append_dot (s t : List Char) (h : '.' ∉ s) :
    splitChars (s ++ '.' :: t) = s :: splitChars t := by
  induction s with
  | nil => simp [splitChars]
  | cons c s' ih =>
      rw [List.cons_append, splitChars,
        if_neg (by intro hc; exact h (hc ▸ List.mem_cons_self c s')),
        ih (fun hm => h (List.mem_cons_of_mem c hm))]

theorem splitChars_joinChars (segs : List (List Char)) (h1 : segs ≠ [])
    (h2 : ∀ s ∈ segs, '.' ∉ s) : splitChars (joinChars segs) = segs := by
  induction segs with
  | nil => exact absurd rfl h1
  | cons s rest ih =>
      cases rest with
      | nil => exact splitChars_nodot s (h2 s (List.mem_cons_self s []))
      | cons r rest' =>
          rw [joinChars_cons s (r :: rest') (by simp),
            splitChars_append_dot s _ (h2 s (List.mem_cons_self s _)),
            ih (by simp) (fun x hx => h2 x (List.mem_cons_of_mem s hx))]

theorem joinChars_append (A B : List (List Char)) (hA : A ≠ []) (hB : B ≠ []) :
    joinChars (A ++ B) = joinChars A ++ '.' :: joinChars B := by
  induction A with
  | nil => exact absurd rfl hA
  | cons a A' ih =>
      cases A' with
      | nil =>
          rw [List.singleton_append, joinChars_cons a B hB]
          rfl
      | cons a2 A2 =>
          rw [List.cons_append, joinChars_cons a _ (by simp),
            joinChars_cons a (a2 :: A2) (by simp), ih (by simp)]
          simp [List.append_assoc]

theorem joinChars_splitChars (cs : List Char) : joinChars (splitChars cs) = cs := by
  induction cs with
  | nil => rfl
  | cons c rest ih =>
      rw [splitChars]
      by_cases hc : c = '.'
      · rw [if_pos hc, joinChars_cons [] _ (splitChars_ne_nil rest), ih, hc]
        rfl
      · rw [if_neg hc]
        rcases h : splitChars rest with _ | ⟨s, ss⟩
        · exact absurd h (splitChars_ne_nil rest)
        · rw [h] at ih
          cases ss with
          | nil => rw [joinChars] at ih ⊢; rw [ih]
          | cons s2 ss2 =>
              rw [joinChars_cons _ _ (by simp), List.cons_append,
                ← joinChars_cons s (s2 :: ss2) (by simp), ih]

theorem pySplit_mk (cs : List Char) : pySplit (String.mk cs) = (splitChars cs).map String.mk :=
  rfl

theorem pySplit_dotJoin (segs : List String) (h1 : segs ≠ [])
    (h2 : ∀ s ∈ segs, '.' ∉ s.data) : pySplit (dotJoin segs) = segs := by
  rw [dotJoin, pySplit_mk, splitChars_joinChars (segs.map String.data)
    (by simpa using h1) (by simpa using h2), List.map_map,
    show String.mk ∘ String.data = id from funext mk_data, List.map_id]

theorem pySplit_nodot (k : String) (h : '.' ∉ k.data) : pySplit k = [k] := by
  rw [pySplit, splitChars_nodot k.data h]
  simp [mk_data]

/-- Setting a path into a freshly created empty dict always succeeds: every
intermediate node is created on the way down. -/
theorem setPath_nil_tree : ∀ (rest : List String) (p : String) (v : String),
    ∃ sub, setPath [] p rest v = some sub := by
  intro rest
  induction rest with
  | nil => intro p v; exact ⟨_, rfl⟩
  | cons p2 rest2 ih =>
      intro p v
      obtain ⟨sub, hsub⟩ := ih p2 v
      exact ⟨_, by rw [setPath]; rw [show assocFind ([] : List (String × JVal)) p = none from rfl,
        hsub]⟩

/-- C3 counterexample: when a shorter key (`a`) was assigned a leaf before a
longer key (`a.b`) below it, `unflatten_dict` does not silently convert the
leaf to a mapping: it raises a `TypeError` (modelled `none`) and does not
complete. -/
theorem C3_counterexample : unflatten_dict [("a", "x"), ("a.b", "y")] = none := by
  decide

/-- C3 (amended): the two directions of the prefix conflict behave
differently.  When the shorter key comes second, its assignment silently
overwrites the mapping node with a leaf and `unflatten_dict` completes; when
the shorter key came first, the walk for the longer key runs into the leaf
and `unflatten_dict` raises a `TypeError` (modelled `none`) instead of
converting it. -/
theorem C3_amended (k : String) (p : List String) (v₁ v₂ : String)
    (hk : '.' ∉ k.data) (hp : ∀ s ∈ p, '.' ∉ s.data) (hpne : p ≠ [])
    (hv₁ : v₁ ≠ "") (hv₂ : v₂ ≠ "") :
    unflatten_dict [(dotJoin (k :: p), v₁), (k, v₂)] = some [(k, JVal.str v₂)] ∧
    unflatten_dict [(k, v₁), (dotJoin (k :: p), v₂)] = none := by
  have hsplitJ : pySplit (dotJoin (k :: p)) = k :: p :=
    pySplit_dotJoin (k :: p) (by simp) (by
      intro s hs
      rcases List.mem_cons.mp hs with h | h
      · exact h ▸ hk
      · exact hp s h)
  have hsplitk : pySplit k = [k] := pySplit_nodot k hk
  rcases p with _ | ⟨p2, ps⟩
  · exact absurd rfl hpne
  obtain ⟨sub2, hsub2⟩ := setPath_nil_tree ps p2 v₁
  constructor
  · simp [unflatten_dict, unflattenAux, hsplitJ, hsplitk, setPath, assocFind,
      assocUpdate, hsub2, hv₁, hv₂]
  · simp [unflatten_dict, unflattenAux, hsplitJ, hsplitk, setPath, assocFind,
      assocUpdate, hv₁, hv₂]

/-- C3 witness: the amended statement applied to the keys `a` and `a.b`. -/
theorem C3_amended_witness :
    unflatten_dict [("a.b", "x"), ("a", "y")] = some [("a", JVal.str "y")] ∧
    unflatten_dict [("a", "x"), ("a.b", "y")] = none :=
  C3_amended "a" ["b"] "x" "y" (by decide) (by decide) (by decide) (by decide) (by decide)

/-! ### Skipping of empty values by `unflatten_dict` (C6) -/

theorem noEmptyLeafEntries_assocUpdate {T : List (String × JVal)} {k : String} {w : JVal}
    (hT : noEmptyLeafEntries T = true) (hw : noEmptyLeafVal w = true) :
    noEmptyLeafEntries (assocUpdate T k w) = true := by
  induction T with
  | nil => simp [assocUpdate, noEmptyLeafEntries, hw]
  | cons e rest ih =>
      obtain ⟨k', v'⟩ := e
      rw [noEmptyLeafEntries] at hT
      rw [assocUpdate]
      by_cases hk : k' = k
      · rw [if_pos hk, noEmptyLeafEntries]
        simp_all
      · rw [if_neg hk, noEmptyLeafEntries]
        simp only [Bool.and_eq_true] at hT ⊢
        exact ⟨hT.1, ih hT.2⟩

theorem noEmptyLeafVal_of_find {T : List (String × JVal)} {k : String} {v : JVal}
    (hT : noEmptyLeafEntries T = true) (h : assocFind T k = some v) :
    noEmptyLeafVal v = true := by
  induction T with
  | nil => simp [assocFind] at h
  | cons e rest ih =>
      obtain ⟨k', v'⟩ := e
      rw [noEmptyLeafEntries, Bool.and_eq_true] at hT
      rw [assocFind] at h
      by_cases hk : k' = k
      · rw [if_pos hk] at h
        cases h
        exact hT.1
      · rw [if_neg hk] at h
        exact ih hT.2 h

theorem setPath_cons_none {T : List (String × JVal)} {p p2 : String} {rest2 : List String}
    {v : String} (h : assocFind T p = none) :
    setPath T p (p2 :: rest2) v =
      match setPath [] p2 rest2 v with
      | none => none
      | some sub => some (assocUpdate T p (JVal.obj sub)) := by
  rw [setPath, h]

theorem setPath_cons_obj {T : List (String × JVal)} {p p2 : String} {rest2 : List String}
    {v : String} {es : List (String × JVal)} (h : assocFind T p = some (JVal.obj es)) :
    setPath T p (p2 :: rest2) v =
      match setPath es p2 rest2 v with
      | none => none
      | some sub' => some (assocUpdate T p (JVal.obj sub')) := by
  rw [setPath, h]

theorem setPath_cons_str {T : List (String × JVal)} {p p2 : String} {rest2 : List String}
    {v : String} {s : String} (h : assocFind T p = some (JVal.str s)) :
    setPath T p (p2 :: rest2) v = none := by
  rw [setPath, h]

theorem setPath_noEmptyLeaf {v : String} (hv : v ≠ "") :
    ∀ (rest : List String) (T : List (String × JVal)) (p : String) (T' : List (String × JVal)),
    noEmptyLeafEntries T = true → setPath T p rest v = some T' →
    noEmptyLeafEntries T' = true := by
  intro rest
  induction rest with
  | nil =>
      intro T p T' hT h
      rw [setPath] at h
      cases h
      exact noEmptyLeafEntries_assocUpdate hT (by simp [noEmptyLeafVal, hv])
  | cons p2 rest2 ih =>
      intro T p T' hT h
      rcases hfind : assocFind T p with _ | w
      · rw [setPath_cons_none hfind] at h
        rcases hsub : setPath [] p2 rest2 v with _ | sub
        · rw [hsub] at h; cases h
        · rw [hsub] at h
          cases h
          have hsubOk : noEmptyLeafEntries sub = true :=
            ih [] p2 sub (by rw [noEmptyLeafEntries]) hsub
          exact noEmptyLeafEntries_assocUpdate hT (by rw [noEmptyLeafVal]; exact hsubOk)
      · rcases w with s | es
        · rw [setPath_cons_str hfind] at h
          cases h
        · rw [setPath_cons_obj hfind] at h
          rcases hsub : setPath es p2 rest2 v with _ | sub
          · rw [hsub] at h; cases h
          · rw [hsub] at h
            cases h
            have hesOk : noEmptyLeafVal (JVal.obj es) = true := noEmptyLeafVal_of_find hT hfind
            rw [noEmptyLeafVal] at hesOk
            have hsubOk : noEmptyLeafEntries sub = true := ih es p2 sub hesOk hsub
            exact noEmptyLeafEntries_assocUpdate hT (by rw [noEmptyLeafVal]; exact hsubOk)

theorem unflattenAux_filter (flat : List (String × String)) :
    ∀ acc, unflattenAux acc flat = unflattenAux acc (flat.filter (fun kv => !(kv.2 == ""))) := by
  induction flat with
  | nil => intro acc; rfl
  | cons kv rest ih =>
      intro acc
      obtain ⟨key, value⟩ := kv
      rw [List.filter_cons]
      by_cases hval : value = ""
      · subst hval
        rw [unflattenAux, if_pos rfl, if_neg (by simp)]
        exact ih acc
      · rw [if_pos (by simp [hval]), unflattenAux, unflattenAux, if_neg hval, if_neg hval]
        rcases hsplit : pySplit key with _ | ⟨p, ps⟩
        · exact ih acc
        · show (match setPath acc p ps value with
              | none => none
              | some acc' => unflattenAux acc' rest) =
            (match setPath acc p ps value with
              | none => none
              | some acc' => unflattenAux acc' (rest.filter (fun kv => !(kv.2 == ""))))
          rcases setPath acc p ps value with _ | acc'
          · rfl
          · exact ih acc'

theorem unflattenAux_noEmptyLeaf (flat : List (String × String)) :
    ∀ acc T, noEmptyLeafEntries acc = true → unflattenAux acc flat = some T →
    noEmptyLeafEntries T = true := by
  induction flat with
  | nil =>
      intro acc T hacc h
      rw [unflattenAux] at h
      cases h
      exact hacc
  | cons kv rest ih =>
      intro acc T hacc h
      obtain ⟨key, value⟩ := kv
      rw [unflattenAux] at h
      by_cases hval : value = ""
      · rw [if_pos hval] at h
        exact ih acc T hacc h
      · rw [if_neg hval] at h
        rcases hsplit : pySplit key with _ | ⟨p, ps⟩
        · rw [hsplit] at h
          exact ih acc T hacc h
        · rw [hsplit] at h
          have h' : (match setPath acc p ps value with
              | none => none
              | some acc' => unflattenAux acc' rest) = some T := h
          rcases hset : setPath acc p ps value with _ | acc'
          · rw [hset] at h'
            cases h'
          · rw [hset] at h'
            exact ih acc' T (setPath_noEmptyLeaf hval ps acc p acc' hacc hset) h'

/-- C6: `unflatten_dict` skips every pair whose value is the empty string —
the result is unchanged if those pairs are removed beforehand — and
consequently a successfully built output document never contains an
empty-string leaf. -/
theorem C6_skip_empty (flat : List (String × String)) :
    unflatten_dict flat = unflatten_dict (flat.filter (fun kv => !(kv.2 == ""))) ∧
    (∀ T, unflatten_dict flat = some T → noEmptyLeafEntries T = true) :=
  ⟨unflattenAux_filter flat [],
   fun T h => unflattenAux_noEmptyLeaf flat [] T (by rw [noEmptyLeafEntries]) h⟩

/-- C6 witness: the property applied to a mapping with one blank and one
non-blank value. -/
theorem C6_skip_empty_witness :
    unflatten_dict [("a", ""), ("b", "x")] = unflatten_dict [("b", "x")] ∧
    noEmptyLeafEntries [("b", JVal.str "x")] = true :=
  ⟨(C6_skip_empty [("a", ""), ("b", "x")]).1,
   (C6_skip_empty [("a", ""), ("b", "x")]).2 [("b", JVal.str "x")] (by decide)⟩

/-! ### Column ordering of `create_excel` (C7) -/

theorem charListLe_iff : ∀ as bs : List Char, charListLe as bs = true ↔ ¬ bs < as := by
  intro as
  induction as with
  | nil =>
      intro bs
      constructor
      · intro _ h
        cases h
      · intro _
        rfl
  | cons a as' ih =>
      intro bs
      cases bs with
      | nil =>
          constructor
          · intro h
            simp [charListLe] at h
          · intro h
            exact absurd List.Lex.nil h
      | cons b bs' =>
          rw [charListLe]
          by_cases hab : a < b
          · rw [if_pos hab]
            constructor
            · intro _ h
              cases h with
              | cons h' => exact absurd hab (lt_irrefl a)
              | rel h' => exact absurd h' (lt_asymm hab)
            · intro _
              rfl
          · rw [if_neg hab]
            by_cases hba : b < a
            · rw [if_pos hba]
              constructor
              · intro h
                exact absurd h (by simp)
              · intro h
                exact absurd (List.Lex.rel hba) h
            · rw [if_neg hba]
              have heq : a = b := le_antisymm (le_of_not_lt hba) (le_of_not_lt hab)
              subst heq
              constructor
              · intro h hlt
                cases hlt with
                | cons h' => exact absurd h' ((ih bs').mp h)
                | rel h' => exact absurd h' (lt_irrefl a)
              · intro h
                exact (ih bs').mpr (fun hlt => h (List.Lex.cons hlt))

theorem strLeB_iff (a b : String) : strLeB a b = true ↔ a ≤ b := by
  rw [String.le_iff_toList_le, ← not_lt]
  exact charListLe_iff a.data b.data

theorem sortStrings_sorted (l : List String) : (sortStrings l).Pairwise (· ≤ ·) := by
  have h := @List.sorted_mergeSort String strLeB
    (fun a b c hab hbc =>
      (strLeB_iff a c).mpr (le_trans ((strLeB_iff a b).mp hab) ((strLeB_iff b c).mp hbc)))
    (fun a b => by
      rcases le_total a b with h | h
      · simp [(strLeB_iff a b).mpr h]
      · simp [(strLeB_iff b a).mpr h])
    l
  exact h.imp (fun hab => (strLeB_iff _ _).mp hab)

theorem sortStrings_perm (l : List String) : (sortStrings l).Perm l :=
  List.mergeSort_perm l _

theorem foldl_appendNew_fresh : ∀ (L acc : List String), L.Nodup →
    (∀ a ∈ L, a ∉ acc) → L.foldl appendNew acc = acc ++ L := by
  intro L
  induction L with
  | nil => intro acc _ _; rw [List.foldl_nil, List.append_nil]
  | cons a L' ih =>
      intro acc hnd hfresh
      rw [List.foldl_cons, appendNew, if_neg (hfresh a (List.mem_cons_self a L'))]
      rw [List.nodup_cons] at hnd
      rw [ih (acc ++ [a]) hnd.2 (fun b hb => by
        rw [List.mem_append, List.mem_singleton]
        rintro (h | h)
        · exact hfresh b (List.mem_cons_of_mem a hb) h
        · exact hnd.1 (h ▸ hb))]
      rw [List.append_assoc, List.singleton_append]

theorem foldl_appendNew_all_mem : ∀ (xs acc : List String),
    (∀ a ∈ xs, a ∈ acc) → xs.foldl appendNew acc = acc := by
  intro xs
  induction xs with
  | nil => intro acc _; rfl
  | cons a xs' ih =>
      intro acc hmem
      rw [List.foldl_cons, appendNew, if_pos (hmem a (List.mem_cons_self a xs'))]
      exact ih acc (fun b hb => hmem b (List.mem_cons_of_mem a hb))

theorem firstDedup_flatMap_const (L : List String) (hL : L.Nodup) :
    ∀ ks : List String, ks ≠ [] → firstDedup (ks.flatMap (fun _ => L)) = L := by
  intro ks
  induction ks with
  | nil => intro h; exact absurd rfl h
  | cons k ks' _ =>
      intro _
      rw [firstDedup, List.flatMap_cons, List.foldl_append]
      rw [foldl_appendNew_fresh L [] hL (fun a _ => List.not_mem_nil a)]
      rw [List.nil_append]
      refine foldl_appendNew_all_mem _ L (fun a ha => ?_)
      obtain ⟨_, _, hmem⟩ := List.mem_flatMap.mp ha
      exact hmem

theorem rowKeys_eq (translations : List (String × List (String × String))) (k : String) :
    (translations.map (fun ld => (ld.1, cellValue ld.2 k))).map Prod.fst =
      translations.map Prod.fst := by
  rw [List.map_map]
  rfl

theorem dfColumns_of_empty (translations : List (String × List (String × String)))
    (he : keyUnion translations = []) : dfColumns translations = [] := by
  rw [dfColumns, df_data, he, sortStrings]
  rw [List.mergeSort_nil, List.map_nil, List.flatMap_nil]
  rfl

theorem dfColumns_of_ne (translations : List (String × List (String × String)))
    (hnd : (translations.map Prod.fst).Nodup) (hne : keyUnion translations ≠ []) :
    dfColumns translations = translations.map Prod.fst := by
  rw [dfColumns, df_data]
  have h1 : ∀ ks : List String,
      ((ks.map (fun k => (k, translations.map (fun ld => (ld.1, cellValue ld.2 k))))).flatMap
        (fun row => row.2.map Prod.fst)) =
      ks.flatMap (fun _ => translations.map Prod.fst) := by
    intro ks
    induction ks with
    | nil => rfl
    | cons k ks' ih =>
        rw [List.map_cons, List.flatMap_cons, List.flatMap_cons, ih]
        rw [show ((k, translations.map (fun ld => (ld.1, cellValue ld.2 k))) :
            String × List (String × String)).2.map Prod.fst =
            translations.map Prod.fst from rowKeys_eq translations k]
  rw [h1]
  refine firstDedup_flatMap_const _ hnd _ (fun h0 => hne ?_)
  have hp := sortStrings_perm (keyUnion translations)
  rw [h0] at hp
  exact hp.nil_eq.symm

set_option maxRecDepth 40000 in
unseal List.merge List.mergeSort in
/-- C7 counterexample: two valid languages whose flattened sets are both
empty (as `load_json_files` produces for empty documents).  `df_data` stays
empty, the DataFrame has no columns, and the final column list is empty even
though the priority language `en-US` is among the input languages — not the
priority-first list `[en-US, fr-FR]` the claim asserts for every input. -/
theorem C7_counterexample :
    create_excel_cols [("en-US", []), ("fr-FR", [])] "en-US" = [] ∧
    ([] : List String) ≠ ["en-US", "fr-FR"] := by
  constructor
  · decide
  · decide

set_option maxRecDepth 40000 in
unseal List.merge List.mergeSort in
/-- C7 amended: when at least one translation key exists, the columns are the
priority language followed by the remaining languages in ascending
lexicographic order when the priority language is present, and all languages
in ascending order (no error) when it is absent; when every language's
flattened set is empty, the table has no language columns at all; the spec's
concrete example (with a key present) holds. -/
theorem C7_column_order (translations : List (String × List (String × String)))
    (priority : String) (hnd : (translations.map Prod.fst).Nodup) :
    (keyUnion translations ≠ [] →
      (priority ∈ translations.map Prod.fst →
        ∃ rest, create_excel_cols translations priority = priority :: rest ∧
          rest.Pairwise (· ≤ ·) ∧ rest.Perm ((translations.map Prod.fst).erase priority)) ∧
      (priority ∉ translations.map Prod.fst →
        (create_excel_cols translations priority).Pairwise (· ≤ ·) ∧
          (create_excel_cols translations priority).Perm (translations.map Prod.fst))) ∧
    (keyUnion translations = [] → create_excel_cols translations priority = []) ∧
    create_excel_cols [("fr-FR", [("k", "v")]), ("en-US", [("k", "v")]), ("de-DE", [("k", "v")])]
      "en-US" = ["en-US", "de-DE", "fr-FR"] := by
  refine ⟨fun hne => ?_, fun he => ?_, ?_⟩
  · have hcols := dfColumns_of_ne translations hnd hne
    constructor
    · intro hmem
      rw [create_excel_cols, hcols, if_pos hmem]
      exact ⟨_, rfl, sortStrings_sorted _, sortStrings_perm _⟩
    · intro hmem
      rw [create_excel_cols, hcols, if_neg hmem]
      exact ⟨sortStrings_sorted _, sortStrings_perm _⟩
  · rw [create_excel_cols, dfColumns_of_empty translations he]
    rw [if_neg (List.not_mem_nil priority), sortStrings, List.mergeSort_nil]
  · decide

/-- C7 witness: the amended ordering statement applied to the spec's example,
and the empty-columns clause applied to two languages with empty sets. -/
theorem C7_column_order_witness :
    (∃ rest, create_excel_cols
        [("fr-FR", [("k", "v")]), ("en-US", [("k", "v")]), ("de-DE", [("k", "v")])] "en-US" =
        "en-US" :: rest ∧ rest.Pairwise (· ≤ ·) ∧
        rest.Perm ((["fr-FR", "en-US", "de-DE"] : List String).erase "en-US")) ∧
    create_excel_cols [("en-US", []), ("fr-FR", [])] "en-US" = [] :=
  ⟨((C7_column_order
      [("fr-FR", [("k", "v")]), ("en-US", [("k", "v")]), ("de-DE", [("k", "v")])] "en-US"
      (by decide)).1 (by decide)).1 (by decide),
   (C7_column_order [("en-US", []), ("fr-FR", [])] "en-US" (by decide)).2.1 (by decide)⟩

/-! ### Per-language extraction from the table (C5) -/

theorem assocUpdate_not_mem {α : Type} {l : List (String × α)} {k : String} {v : α}
    (h : k ∉ l.map Prod.fst) : assocUpdate l k v = l ++ [(k, v)] := by
  induction l with
  | nil => rfl
  | cons e rest ih =>
      obtain ⟨k', v'⟩ := e
      simp only [List.map_cons, List.mem_cons] at h
      push_neg at h
      rw [assocUpdate, if_neg (fun he => h.1 he.symm), ih h.2, List.cons_append]

theorem foldl_assocUpdate {α : Type} (l : List (String × α)) :
    ∀ acc, (l.map Prod.fst).Nodup → (∀ k ∈ l.map Prod.fst, k ∉ acc.map Prod.fst) →
    l.foldl (fun acc kv => assocUpdate acc kv.1 kv.2) acc = acc ++ l := by
  induction l with
  | nil => intro acc _ _; simp
  | cons kv rest ih =>
      intro acc hnd hdis
      obtain ⟨k, v⟩ := kv
      simp only [List.map_cons, List.nodup_cons] at hnd
      rw [List.foldl_cons]
      rw [show assocUpdate acc k v = acc ++ [(k, v)] from
        assocUpdate_not_mem (hdis k (by simp))]
      rw [ih (acc ++ [(k, v)]) hnd.2 (fun k' hk' => by
        simp only [List.map_append, List.mem_append, List.map_cons, List.map_nil]
        push_neg
        refine ⟨hdis k' (by simp [hk']), ?_⟩
        simp only [List.mem_singleton]
        intro he
        exact hnd.1 (he ▸ hk'))]
      simp

theorem pyDictOfList_eq {α : Type} {l : List (String × α)} (h : (l.map Prod.fst).Nodup) :
    pyDictOfList l = l := by
  rw [pyDictOfList, foldl_assocUpdate l [] h (by simp)]
  simp

theorem nodup_keys_eq {α : Type} {l : List (String × α)} {k : String} {a b : α}
    (hnd : (l.map Prod.fst).Nodup) (ha : (k, a) ∈ l) (hb : (k, b) ∈ l) : a = b := by
  induction l with
  | nil => cases ha
  | cons e rest ih =>
      simp only [List.map_cons, List.nodup_cons] at hnd
      rcases List.mem_cons.mp ha with ha' | ha' <;> rcases List.mem_cons.mp hb with hb' | hb'
      · exact (Prod.ext_iff.mp (ha'.trans hb'.symm)).2
      · exfalso
        apply hnd.1
        rw [← ha']
        simpa using List.mem_map_of_mem Prod.fst hb'
      · exfalso
        apply hnd.1
        rw [← hb']
        simpa using List.mem_map_of_mem Prod.fst ha'
      · exact ih hnd.2 ha' hb'

theorem langColumn_keys_sublist (rows : List (String × List (Option String))) (i : Nat) :
    ((rows.filterMap (fun r =>
      match r.2.get? i with
      | some (some v) => some (r.1, v)
      | _ => none)).map Prod.fst).Sublist (rows.map Prod.fst) := by
  induction rows with
  | nil => simp
  | cons r rest ih =>
      obtain ⟨key, cells⟩ := r
      rw [List.filterMap_cons]
      rcases hc : cells.get? i with _ | oc
      · simpa using ih.cons key
      · rcases oc with _ | v
        · simpa using ih.cons key
        · simpa using ih.cons₂ key

theorem mem_langColumn {rows : List (String × List (Option String))} {i : Nat}
    {k v : String} (hnd : (rows.map Prod.fst).Nodup) :
    (k, v) ∈ langColumn rows i ↔
      ∃ cells, (k, cells) ∈ rows ∧ cells.get? i = some (some v) := by
  rw [langColumn, pyDictOfList_eq ((langColumn_keys_sublist rows i).nodup hnd)]
  rw [List.mem_filterMap]
  constructor
  · rintro ⟨⟨key, cells⟩, hmem, hf⟩
    rcases hc : cells.get? i with _ | oc
    · rw [hc] at hf; cases hf
    · rcases oc with _ | w
      · rw [hc] at hf; cases hf
      · rw [hc] at hf
        cases hf
        exact ⟨cells, hmem, hc⟩
  · rintro ⟨cells, hmem, hc⟩
    exact ⟨(k, cells), hmem, by rw [hc]⟩

/-- C5: for a table whose row keys are unique, the set extracted for the
language at column `i` has an entry exactly for the rows whose cell at `i`
holds a value (blank cells are NaN, dropped by `pd.notna`); a key whose cell
at `i` is blank never appears; and the per-language sets are produced for
each column in order. -/
theorem C5_extraction (cols : List String) (rows : List (String × List (Option String)))
    (i : Nat) (lang : String) (hnd : (rows.map Prod.fst).Nodup)
    (hcol : cols.get? i = some lang) :
    ((lang, langColumn rows i) ∈ read_excel_to_translations cols rows) ∧
    (∀ k v, (k, v) ∈ langColumn rows i ↔
      ∃ cells, (k, cells) ∈ rows ∧ cells.get? i = some (some v)) ∧
    (∀ k cells, (k, cells) ∈ rows → cells.get? i = some none →
      k ∉ (langColumn rows i).map Prod.fst) := by
  refine ⟨?_, fun k v => mem_langColumn hnd, fun k cells hmem hblank hk => ?_⟩
  · rw [read_excel_to_translations]
    refine List.mem_map.mpr ⟨(i, lang), ?_, rfl⟩
    exact List.mem_enum_iff_getElem?.mpr (by rw [← List.get?_eq_getElem?]; exact hcol)
  · obtain ⟨⟨k₂, v⟩, hv, hfst⟩ := List.mem_map.mp hk
    obtain ⟨cells', hmem', hc'⟩ := (mem_langColumn hnd).mp (by
      cases hfst
      exact hv)
    have : cells' = cells := nodup_keys_eq hnd (by cases hfst; exact hmem') (by cases hfst; exact hmem)
    rw [this, hblank] at hc'
    cases hc'

/-- C5 witness: the extraction statement applied to a two-row table with one
value and one blank cell. -/
theorem C5_extraction_witness :
    (("a.b", "x") ∈ langColumn [("a.b", [some "x"]), ("z", [none])] 0) ∧
    ("z" ∉ (langColumn [("a.b", [some "x"]), ("z", [none])] 0).map Prod.fst) :=
  ⟨((C5_extraction ["en-US"] [("a.b", [some "x"]), ("z", [none])] 0 "en-US"
      (by decide) (by decide)).2.1 "a.b" "x").mpr ⟨[some "x"], by decide, by decide⟩,
   (C5_extraction ["en-US"] [("a.b", [some "x"]), ("z", [none])] 0 "en-US"
      (by decide) (by decide)).2.2 "z" [none] (by decide) (by decide)⟩

/-! ### Row construction of `create_excel` (C8) -/

theorem assocFind_eq_of_mem {α : Type} {l : List (String × α)} {k : String} {v : α}
    (hnd : (l.map Prod.fst).Nodup) (h : (k, v) ∈ l) : assocFind l k = some v := by
  induction l with
  | nil => cases h
  | cons e rest ih =>
      obtain ⟨k', v'⟩ := e
      simp only [List.map_cons, List.nodup_cons] at hnd
      rw [assocFind]
      rcases List.mem_cons.mp h with h' | h'
      · injection h' with h1 h2
        rw [if_pos h1.symm, h2]
      · rw [if_neg (fun he => hnd.1 (by
          rw [he]
          simpa using List.mem_map_of_mem Prod.fst h'))]
        exact ih hnd.2 h'

theorem assocFind_eq_none {α : Type} {l : List (String × α)} {k : String}
    (h : k ∉ l.map Prod.fst) : assocFind l k = none := by
  induction l with
  | nil => rfl
  | cons e rest ih =>
      obtain ⟨k', v'⟩ := e
      simp only [List.map_cons, List.mem_cons] at h
      push_neg at h
      rw [assocFind, if_neg (fun he => h.1 he.symm)]
      exact ih h.2

theorem create_excel_rows_keys (translations : List (String × List (String × String)))
    (priority : String) :
    (create_excel_rows translations priority).map Prod.fst =
      sortStrings (keyUnion translations) := by
  rw [create_excel_rows, List.map_map]
  have : (Prod.fst ∘ fun k => ((k : String),
      (create_excel_cols translations priority).map
        (fun lang => cellValue ((assocFind translations lang).getD []) k))) = id := rfl
  rw [this, List.map_id]

set_option maxRecDepth 80000 in
unseal List.merge List.mergeSort in
/-- C8: the table built by `create_excel` has one row per key of the union of
all languages' key sets, its row keys are ascending and distinct, every
`(key, language)` cell is the language's value when the key is present and
the empty string when it is absent (absence is never an error), and the
spec's concrete example produces rows `[a.b, a.c, z]`. -/
theorem C8_rows (translations : List (String × List (String × String))) (priority : String)
    (hnd : (translations.map Prod.fst).Nodup) :
    ((create_excel_rows translations priority).map Prod.fst).Pairwise (· ≤ ·) ∧
    ((create_excel_rows translations priority).map Prod.fst).Nodup ∧
    (∀ k, k ∈ (create_excel_rows translations priority).map Prod.fst ↔
      ∃ ld ∈ translations, k ∈ ld.2.map Prod.fst) ∧
    (∀ k cells, (k, cells) ∈ create_excel_rows translations priority →
      ∀ i lang d, (create_excel_cols translations priority).get? i = some lang →
        (lang, d) ∈ translations →
        ((∀ v, (k, v) ∈ d → (d.map Prod.fst).Nodup → cells.get? i = some v) ∧
         (k ∉ d.map Prod.fst → cells.get? i = some ""))) ∧
    (create_excel_rows [("en-US", [("a.b", "1"), ("z", "2")]), ("fr-FR", [("a.c", "3")])]
        "en-US").map Prod.fst = ["a.b", "a.c", "z"] := by
  refine ⟨?_, ?_, ?_, ?_, ?_⟩
  · rw [create_excel_rows_keys]
    exact sortStrings_sorted _
  · rw [create_excel_rows_keys]
    exact ((sortStrings_perm _).symm.nodup (List.nodup_dedup _))
  · intro k
    rw [create_excel_rows_keys]
    rw [(sortStrings_perm _).mem_iff]
    rw [keyUnion, List.mem_dedup, List.mem_flatMap]
  · intro k cells hmem i lang d hcol hld
    obtain ⟨k₀, hk₀, hf⟩ := List.mem_map.mp hmem
    injection hf with hk hcells
    subst hk
    subst hcells
    have hcell : (List.map (fun lang => cellValue ((assocFind translations lang).getD []) k₀)
        (create_excel_cols translations priority)).get? i =
        some (cellValue ((assocFind translations lang).getD []) k₀) := by
      have hcol' := hcol
      rw [List.get?_eq_getElem?] at hcol'
      rw [List.get?_eq_getElem?, List.getElem?_map, hcol']
      rfl
    have hfind : assocFind translations lang = some d := assocFind_eq_of_mem hnd hld
    rw [hfind] at hcell
    constructor
    · intro v hv hdnd
      rw [hcell]
      show some (cellValue d k₀) = some v
      rw [cellValue, assocFind_eq_of_mem hdnd hv]
      rfl
    · intro habs
      rw [hcell]
      show some (cellValue d k₀) = some ""
      rw [cellValue, assocFind_eq_none habs]
      rfl
  · decide

/-! ### Invalid language codes: skip behaviour of the load and save loops (C9) -/

theorem loadAux_skip_invalid {f : String} (hf : isValidJsonName f = false)
    (validLangs : Option (List String)) (c : Option (List (String × JVal))) :
    ∀ (pre post : List (String × Option (List (String × JVal)))) acc,
    loadAux validLangs acc (pre ++ (f, c) :: post) = loadAux validLangs acc (pre ++ post) := by
  intro pre
  induction pre with
  | nil =>
      intro post acc
      rw [List.nil_append, List.nil_append, loadAux,
        show loadStep validLangs acc f c = acc from by simp [loadStep, hf]]
  | cons e pre' ih =>
      intro post acc
      obtain ⟨g, d⟩ := e
      rw [List.cons_append, List.cons_append, loadAux, loadAux]
      exact ih post (loadStep validLangs acc g d)

theorem saveAux_diags : ∀ (ts : List (String × List (String × String))) acc res,
    saveAux acc ts = some res →
    res.2 = acc.2 ++ (ts.map Prod.fst).filter (fun l => !isValidLangCode l) := by
  intro ts
  induction ts with
  | nil =>
      intro acc res h
      rw [saveAux] at h
      cases h
      simp
  | cons e rest ih =>
      intro acc res h
      obtain ⟨lang, flat⟩ := e
      rw [saveAux] at h
      by_cases hv : isValidLangCode lang = true
      · rw [if_pos hv] at h
        rcases hu : unflatten_dict flat with _ | nested
        · rw [hu] at h; cases h
        · rw [hu] at h
          rw [List.map_cons, List.filter_cons, if_neg (by simp [hv])]
          exact ih (acc.1 ++ [(lang, nested)], acc.2) res h
      · rw [if_neg hv] at h
        rw [List.map_cons, List.filter_cons,
          if_pos (by simp [Bool.eq_false_iff.mpr (fun hc => hv hc)])]
        rw [ih (acc.1, acc.2 ++ [lang]) res h]
        simp

theorem saveAux_valid_out : ∀ (ts : List (String × List (String × String))) acc res,
    saveAux acc ts = some res →
    ∀ l ∈ res.1.map Prod.fst, isValidLangCode l = true ∨ l ∈ acc.1.map Prod.fst := by
  intro ts
  induction ts with
  | nil =>
      intro acc res h
      rw [saveAux] at h
      cases h
      intro l hl
      exact Or.inr hl
  | cons e rest ih =>
      intro acc res h
      obtain ⟨lang, flat⟩ := e
      rw [saveAux] at h
      by_cases hv : isValidLangCode lang = true
      · rw [if_pos hv] at h
        rcases hu : unflatten_dict flat with _ | nested
        · rw [hu] at h; cases h
        · rw [hu] at h
          intro l hl
          rcases ih (acc.1 ++ [(lang, nested)], acc.2) res h l hl with hval | hmem
          · exact Or.inl hval
          · simp only [List.map_append, List.mem_append, List.map_cons, List.map_nil,
              List.mem_singleton] at hmem
            rcases hmem with hmem | hmem
            · exact Or.inr hmem
            · exact Or.inl (hmem ▸ hv)
      · rw [if_neg hv] at h
        exact ih (acc.1, acc.2 ++ [lang]) res h

theorem saveAux_filter : ∀ (ts : List (String × List (String × String))) acc res,
    saveAux acc ts = some res →
    ∀ d, saveAux (acc.1, d) (ts.filter (fun t => isValidLangCode t.1)) = some (res.1, d) := by
  intro ts
  induction ts with
  | nil =>
      intro acc res h d
      rw [saveAux] at h
      cases h
      rw [List.filter_nil, saveAux]
  | cons e rest ih =>
      intro acc res h d
      obtain ⟨lang, flat⟩ := e
      rw [saveAux] at h
      rw [List.filter_cons]
      by_cases hv : isValidLangCode lang = true
      · rw [if_pos hv] at h
        rw [if_pos (by simpa using hv)]
        rcases hu : unflatten_dict flat with _ | nested
        · rw [hu] at h; cases h
        · rw [hu] at h
          rw [saveAux, if_pos hv, hu]
          exact ih (acc.1 ++ [(lang, nested)], acc.2) res h d
      · rw [if_neg hv] at h
        rw [if_neg (by simpa using hv)]
        exact ih (acc.1, acc.2 ++ [lang]) res h d

set_option maxRecDepth 40000 in
unseal flatten_items in
/-- C9 counterexample: a source file named `english.json` alongside valid
`en-US.json` and `fr-FR.json` is skipped and the run continues with the
remaining files, but NO diagnostic is recorded for the skipped name: the
diagnostics list of the load is empty. -/
theorem C9_counterexample :
    load_json_files [("en-US.json", some [("k", JVal.str "v")]),
        ("english.json", some [("k", JVal.str "v")]),
        ("fr-FR.json", some [("k", JVal.str "v")])] none =
      ([("en-US", [("k", "v")]), ("fr-FR", [("k", "v")])], []) := by
  decide

/-- C9 (amended): during writing, an invalid language code is skipped, a
diagnostic naming it is recorded, and the remaining languages are processed —
the outputs are those of the valid languages alone and the run is not aborted
for an invalid code; during loading, a file whose name fails the
`xx-YY.json` pattern is skipped SILENTLY — removing it from the listing
changes nothing, in particular no diagnostic is recorded for it — and
processing continues with the remaining files. -/
theorem C9_amended :
    (∀ (validLangs : Option (List String))
       (pre post : List (String × Option (List (String × JVal))))
       (f : String) (c : Option (List (String × JVal))),
      isValidJsonName f = false →
      load_json_files (pre ++ (f, c) :: post) validLangs =
        load_json_files (pre ++ post) validLangs) ∧
    (∀ ts res, save_translations_to_json ts = some res →
      res.2 = (ts.map Prod.fst).filter (fun l => !isValidLangCode l) ∧
      (∀ l ∈ res.1.map Prod.fst, isValidLangCode l = true) ∧
      save_translations_to_json (ts.filter (fun t => isValidLangCode t.1)) =
        some (res.1, [])) := by
  constructor
  · intro validLangs pre post f c hf
    exact loadAux_skip_invalid hf validLangs c pre post ([], [])
  · intro ts res h
    refine ⟨?_, ?_, ?_⟩
    · have := saveAux_diags ts ([], []) res h
      simpa using this
    · intro l hl
      rcases saveAux_valid_out ts ([], []) res h l hl with hval | hmem
      · exact hval
      · simp at hmem
    · exact saveAux_filter ts ([], []) res h []

/-- C9 witness: the amended statement applied to a listing with the invalid
`english.json` and to a translations dict with the invalid code `english`. -/
theorem C9_amended_witness :
    (load_json_files [("en-US.json", some [("k", JVal.str "v")]),
        ("english.json", some [("k", JVal.str "v")])] none =
      load_json_files [("en-US.json", some [("k", JVal.str "v")])] none) ∧
    (["english"] : List String) =
      (([("english", [("k", "v")]), ("en-US", [("k", "v")])].map Prod.fst).filter
        (fun l => !isValidLangCode l)) := by
  constructor
  · exact C9_amended.1 none [("en-US.json", some [("k", JVal.str "v")])] []
      "english.json" (some [("k", JVal.str "v")]) (by decide)
  · exact (C9_amended.2 [("english", [("k", "v")]), ("en-US", [("k", "v")])]
      ([("en-US", [("k", JVal.str "v")])], ["english"]) (by decide)).1

/-! ### Totality of `unflatten_dict` without prefix conflicts (C10) -/

theorem pySplit_ne_nil (s : String) : pySplit s ≠ [] := by
  rw [pySplit]
  intro h
  exact splitChars_ne_nil s.data (List.map_eq_nil_iff.mp h)

theorem listLeads_iff : ∀ s l : List Char, listLeads s l = true ↔ ∃ rest, l = s ++ '.' :: rest := by
  intro s
  induction s with
  | nil =>
      intro l
      cases l with
      | nil =>
          simp [listLeads]
      | cons d ds =>
          rw [listLeads]
          simp only [beq_iff_eq, List.nil_append]
          constructor
          · intro h
            exact ⟨ds, by rw [h]⟩
          · rintro ⟨rest, hr⟩
            exact (List.cons.injEq .. ▸ hr).1
  | cons c cs ih =>
      intro l
      cases l with
      | nil =>
          simp [listLeads]
      | cons d ds =>
          rw [listLeads]
          simp only [Bool.and_eq_true, beq_iff_eq, ih ds, List.cons_append, List.cons.injEq]
          constructor
          · rintro ⟨hc, rest, hr⟩
            exact ⟨rest, hc.symm, hr⟩
          · rintro ⟨rest, hd, hr⟩
            exact ⟨hd.symm, rest, hr⟩

theorem assocFind_mem {l : List (String × JVal)} {k : String} {v : JVal}
    (h : assocFind l k = some v) : (k, v) ∈ l := by
  induction l with
  | nil => cases h
  | cons e rest ih =>
      obtain ⟨k', v'⟩ := e
      rw [assocFind] at h
      by_cases hk : k' = k
      · rw [if_pos hk] at h
        cases h
        exact List.mem_cons.mpr (Or.inl (by rw [hk]))
      · rw [if_neg hk] at h
        exact List.mem_cons.mpr (Or.inr (ih h))

theorem mem_leafPathsE {T : List (String × JVal)} {k : String} {v : JVal} {q : List String}
    (hm : (k, v) ∈ T) (hq : q ∈ leafPathsVal v) : k :: q ∈ leafPathsE T := by
  induction T with
  | nil => cases hm
  | cons e rest ih =>
      obtain ⟨k', v'⟩ := e
      rw [leafPathsE, List.mem_append]
      rcases List.mem_cons.mp hm with hm' | hm'
      · injection hm' with h1 h2
        subst h1
        subst h2
        exact Or.inl (List.mem_map_of_mem _ hq)
      · exact Or.inr (ih hm')

theorem leafPaths_assocUpdate {T : List (String × JVal)} {k : String} {w : JVal}
    {q : List String} (h : q ∈ leafPathsE (assocUpdate T k w)) :
    q ∈ leafPathsE T ∨ ∃ q', q = k :: q' ∧ q' ∈ leafPathsVal w := by
  induction T with
  | nil =>
      rw [assocUpdate, leafPathsE, leafPathsE, List.append_nil] at h
      obtain ⟨q', hq', hqe⟩ := List.mem_map.mp h
      exact Or.inr ⟨q', hqe.symm, hq'⟩
  | cons e rest ih =>
      obtain ⟨k', v'⟩ := e
      rw [assocUpdate] at h
      by_cases hk : k' = k
      · rw [if_pos hk] at h
        rw [leafPathsE, List.mem_append] at h
        rcases h with h | h
        · obtain ⟨q', hq', hqe⟩ := List.mem_map.mp h
          exact Or.inr ⟨q', hqe.symm, hq'⟩
        · exact Or.inl (by rw [leafPathsE, List.mem_append]; exact Or.inr h)
      · rw [if_neg hk] at h
        rw [leafPathsE, List.mem_append] at h
        rcases h with h | h
        · exact Or.inl (by rw [leafPathsE, List.mem_append]; exact Or.inl h)
        · rcases ih h with h' | h'
          · exact Or.inl (by rw [leafPathsE, List.mem_append]; exact Or.inr h')
          · exact Or.inr h'

theorem setPath_success : ∀ (rest : List String) (T : List (String × JVal)) (p v : String),
    (∀ q ∈ leafPathsE T, ∀ tail, tail ≠ [] → p :: rest ≠ q ++ tail) →
    ∃ T', setPath T p rest v = some T' := by
  intro rest
  induction rest with
  | nil =>
      intro T p v _
      exact ⟨_, rfl⟩
  | cons p2 rest2 ih =>
      intro T p v hsafe
      rcases hfind : assocFind T p with _ | w
      · obtain ⟨sub, hsub⟩ := setPath_nil_tree rest2 p2 v
        exact ⟨_, by rw [setPath_cons_none hfind, hsub]⟩
      · rcases w with s | S
        · exfalso
          have hmem : [p] ∈ leafPathsE T :=
            mem_leafPathsE (assocFind_mem hfind) (by rw [leafPathsVal]; simp)
          exact hsafe [p] hmem (p2 :: rest2) (by simp) rfl
        · obtain ⟨S', hS'⟩ := ih S p2 v (fun q hq tail htail heq => by
            have hmem : p :: q ∈ leafPathsE T :=
              mem_leafPathsE (assocFind_mem hfind) (by rw [leafPathsVal]; exact hq)
            exact hsafe (p :: q) hmem tail htail (by rw [heq, List.cons_append]))
          exact ⟨_, by rw [setPath_cons_obj hfind, hS']⟩

theorem setPath_leafPaths : ∀ (rest : List String) (T : List (String × JVal))
    (p v : String) (T' : List (String × JVal)),
    setPath T p rest v = some T' →
    ∀ q ∈ leafPathsE T', q ∈ leafPathsE T ∨ q = p :: rest := by
  intro rest
  induction rest with
  | nil =>
      intro T p v T' h q hq
      rw [setPath] at h
      cases h
      rcases leafPaths_assocUpdate hq with h' | ⟨q', hqe, hq'⟩
      · exact Or.inl h'
      · rw [leafPathsVal] at hq'
        simp only [List.mem_singleton] at hq'
        exact Or.inr (by rw [hqe, hq'])
  | cons p2 rest2 ih =>
      intro T p v T' h q hq
      rcases hfind : assocFind T p with _ | w
      · rw [setPath_cons_none hfind] at h
        rcases hsub : setPath [] p2 rest2 v with _ | sub
        · rw [hsub] at h; cases h
        · rw [hsub] at h
          cases h
          rcases leafPaths_assocUpdate hq with h' | ⟨q', hqe, hq'⟩
          · exact Or.inl h'
          · rw [leafPathsVal] at hq'
            rcases ih [] p2 v sub hsub q' hq' with h'' | h''
            · rw [leafPathsE] at h''
              cases h''
            · exact Or.inr (by rw [hqe, h''])
      · rcases w with s | S
        · rw [setPath_cons_str hfind] at h
          cases h
        · rw [setPath_cons_obj hfind] at h
          rcases hsub : setPath S p2 rest2 v with _ | S'
          · rw [hsub] at h; cases h
          · rw [hsub] at h
            cases h
            rcases leafPaths_assocUpdate hq with h' | ⟨q', hqe, hq'⟩
            · exact Or.inl h'
            · rcases ih S p2 v S' hsub q' hq' with h'' | h''
              · exact Or.inl (by
                  rw [hqe]
                  exact mem_leafPathsE (assocFind_mem hfind) (by rw [leafPathsVal]; exact h''))
              · exact Or.inr (by rw [hqe, h''])

theorem dotLeads_of_split_append {k₁ k₂ : String} {tail : List String}
    (htail : tail ≠ []) (heq : pySplit k₂ = pySplit k₁ ++ tail) :
    ∃ rest, k₂.data = k₁.data ++ '.' :: rest := by
  have h2 : splitChars k₂.data = splitChars k₁.data ++ tail.map String.data := by
    have h3 := congrArg (List.map String.data) heq
    rw [pySplit, pySplit, List.map_map, List.map_append, List.map_map,
      show String.data ∘ String.mk = id from rfl, List.map_id, List.map_id] at h3
    exact h3
  have h4 : k₂.data = joinChars (splitChars k₂.data) := (joinChars_splitChars _).symm
  rw [h2, joinChars_append _ _ (splitChars_ne_nil _) (by simpa using htail),
    joinChars_splitChars] at h4
  exact ⟨joinChars (tail.map String.data), h4⟩

theorem unflattenAux_success : ∀ (flat : List (String × String)) (T : List (String × JVal)),
    (∀ q ∈ leafPathsE T, ∀ kv ∈ flat, ∀ tail, tail ≠ [] → pySplit kv.1 ≠ q ++ tail) →
    (∀ kv₁ ∈ flat, ∀ kv₂ ∈ flat, ∀ tail, tail ≠ [] → pySplit kv₂.1 ≠ pySplit kv₁.1 ++ tail) →
    ∃ d, unflattenAux T flat = some d := by
  intro flat
  induction flat with
  | nil =>
      intro T _ _
      exact ⟨T, rfl⟩
  | cons kv rest ih =>
      intro T h1 h2
      obtain ⟨key, v⟩ := kv
      by_cases hv : v = ""
      · rw [unflattenAux, if_pos hv]
        exact ih T (fun q hq kv' hkv' => h1 q hq kv' (List.mem_cons_of_mem _ hkv'))
          (fun kv₁ h₁ kv₂ h₂' => h2 kv₁ (List.mem_cons_of_mem _ h₁) kv₂ (List.mem_cons_of_mem _ h₂'))
      · rw [unflattenAux, if_neg hv]
        rcases hsplit : pySplit key with _ | ⟨p, ps⟩
        · exact absurd hsplit (pySplit_ne_nil key)
        · obtain ⟨T', hT'⟩ := setPath_success ps T p v (fun q hq tail htail heq =>
            h1 q hq (key, v) (List.mem_cons_self _ _) tail htail (by rw [hsplit, heq]))
          show ∃ d, (match setPath T p ps v with
            | none => none
            | some acc' => unflattenAux acc' rest) = some d
          rw [hT']
          apply ih T'
          · intro q hq kv' hkv' tail htail
            rcases setPath_leafPaths ps T p v T' hT' q hq with hqT | hqnew
            · exact h1 q hqT kv' (List.mem_cons_of_mem _ hkv') tail htail
            · rw [hqnew, ← hsplit]
              exact h2 (key, v) (List.mem_cons_self _ _) kv' (List.mem_cons_of_mem _ hkv') tail htail
          · intro kv₁ h₁ kv₂ h₂'
            exact h2 kv₁ (List.mem_cons_of_mem _ h₁) kv₂ (List.mem_cons_of_mem _ h₂')

/-- C10: on a flat mapping with non-empty values in which no key is a proper
`'.'`-prefix of another key, `unflatten_dict` completes without raising and
returns a nested mapping; and keys themselves are never validated: the empty
key and a key with an empty segment (`a..b`) are accepted, producing nodes
whose segment name is the empty string. -/
theorem C10_no_raise (flat : List (String × String))
    (_hvals : ∀ kv ∈ flat, kv.2 ≠ "")
    (hpref : ∀ kv₁ ∈ flat, ∀ kv₂ ∈ flat, listLeads kv₁.1.data kv₂.1.data = false) :
    (∃ d, unflatten_dict flat = some d) ∧
    unflatten_dict [("", "v")] = some [("", JVal.str "v")] ∧
    unflatten_dict [("a..b", "v")] =
      some [("a", JVal.obj [("", JVal.obj [("b", JVal.str "v")])])] := by
  refine ⟨?_, by decide, by decide⟩
  apply unflattenAux_success flat []
  · intro q hq
    rw [leafPathsE] at hq
    cases hq
  · intro kv₁ h₁ kv₂ h₂ tail htail heq
    obtain ⟨rest, hrest⟩ := dotLeads_of_split_append htail heq
    have := (listLeads_iff kv₁.1.data kv₂.1.data).mpr ⟨rest, hrest⟩
    rw [hpref kv₁ h₁ kv₂ h₂] at this
    cases this

/-- C10 witness: the totality statement applied to a two-key conflict-free
mapping. -/
theorem C10_no_raise_witness :
    (∃ d, unflatten_dict [("a.b", "x"), ("c", "y")] = some d) ∧
    unflatten_dict [("", "v")] = some [("", JVal.str "v")] :=
  ⟨(C10_no_raise [("a.b", "x"), ("c", "y")] (by decide) (by decide)).1,
   (C10_no_raise [("a.b", "x"), ("c", "y")] (by decide) (by decide)).2.1⟩

/-! ### The flatten/unflatten round trip (C1) -/

theorem str_data_inj {a b : String} (h : a.data = b.data) : a = b := by
  cases a
  cases b
  cases h
  rfl

theorem dot_data : ("." : String).data = ['.'] := rfl

theorem dotJoin_single (k : String) : dotJoin [k] = k := rfl

theorem dotJoin_cons (k : String) (p : List String) (hp : p ≠ []) :
    (dotJoin (k :: p)).data = k.data ++ '.' :: (dotJoin p).data := by
  show joinChars (k.data :: p.map String.data) = k.data ++ '.' :: joinChars (p.map String.data)
  exact joinChars_cons _ _ (by simpa using hp)

theorem joinKey_empty (p : List String) : joinKey "" p = dotJoin p := by
  rw [joinKey, if_pos rfl]

theorem joinKey_data (pk : String) (p : List String) (hpk : pk ≠ "") :
    (joinKey pk p).data = pk.data ++ '.' :: (dotJoin p).data := by
  rw [joinKey, if_neg hpk, String.data_append, String.data_append, dot_data]
  simp

theorem joinKey_single_ne (pk k : String) (hk : k ≠ "") : joinKey pk [k] ≠ "" := by
  by_cases hpk : pk = ""
  · rw [hpk, joinKey_empty, dotJoin_single]
    exact hk
  · intro h
    have h2 := congrArg String.data h
    rw [joinKey_data pk [k] hpk] at h2
    simp at h2

theorem joinKey_cons (pk k : String) (p : List String) (hk : k ≠ "") (hp : p ≠ []) :
    joinKey (joinKey pk [k]) p = joinKey pk (k :: p) := by
  apply str_data_inj
  by_cases hpk : pk = ""
  · rw [hpk, joinKey_empty, dotJoin_single, joinKey_empty,
      joinKey_data k p hk, dotJoin_cons k p hp]
  · rw [joinKey_data _ p (joinKey_single_ne pk k hk), joinKey_data pk (k :: p) hpk,
      joinKey_data pk [k] hpk, dotJoin_single, dotJoin_cons k p hp]
    simp

mutual

theorem pathsOfVal_good : ∀ (v : JVal), goodVal v = true →
    ∀ pv ∈ pathsOfVal v, (∀ s ∈ pv.1, s ≠ "" ∧ '.' ∉ s.data) ∧ pv.2 ≠ ""
  | .str s, h, pv, hpv => by
      rw [goodVal, Bool.and_eq_true, decide_eq_true_eq, decide_eq_true_eq] at h
      rw [pathsOfVal, List.mem_singleton] at hpv
      subst hpv
      refine ⟨fun x hx => absurd hx (List.not_mem_nil x), ?_⟩
      rw [h.2]
      exact h.1
  | .obj es, h, pv, hpv => by
      rw [goodVal, Bool.and_eq_true] at h
      rw [pathsOfVal] at hpv
      have h2 := pathsOfE_good es h.2 pv hpv
      exact ⟨h2.1.2, h2.2⟩

theorem pathsOfE_good : ∀ (es : List (String × JVal)), goodEntries es = true →
    ∀ pv ∈ pathsOfE es,
      (pv.1 ≠ [] ∧ ∀ s ∈ pv.1, s ≠ "" ∧ '.' ∉ s.data) ∧ pv.2 ≠ ""
  | [], _, pv, hpv => by cases hpv
  | (k, v) :: rest, h, pv, hpv => by
      rw [goodEntries, Bool.and_eq_true, Bool.and_eq_true, Bool.and_eq_true,
        keyOk, Bool.and_eq_true, decide_eq_true_eq, decide_eq_true_eq,
        decide_eq_true_eq] at h
      obtain ⟨⟨⟨⟨hkne, hkdot⟩, _⟩, hgv⟩, hgrest⟩ := h
      rw [pathsOfE, List.mem_append] at hpv
      rcases hpv with hpv | hpv
      · obtain ⟨pv', hpv', hpe⟩ := List.mem_map.mp hpv
        obtain ⟨hsegs, hval⟩ := pathsOfVal_good v hgv pv' hpv'
        subst hpe
        refine ⟨⟨by simp, ?_⟩, hval⟩
        intro s hs
        rcases List.mem_cons.mp hs with hs | hs
        · subst hs
          exact ⟨hkne, hkdot⟩
        · exact hsegs s hs
      · exact pathsOfE_good rest hgrest pv hpv

end

mutual

theorem pathsOfVal_ne_nil : ∀ (v : JVal), goodVal v = true → pathsOfVal v ≠ []
  | .str _, _ => by
      rw [pathsOfVal]
      simp
  | .obj es, h => by
      rw [goodVal, Bool.and_eq_true, decide_eq_true_eq] at h
      rw [pathsOfVal]
      rcases es with _ | ⟨e, rest⟩
      · exact absurd rfl h.1
      · exact pathsOfE_cons_ne_nil e rest h.2

theorem pathsOfE_cons_ne_nil : ∀ (e : String × JVal) (rest : List (String × JVal)),
    goodEntries (e :: rest) = true → pathsOfE (e :: rest) ≠ []
  | (k, v), rest, h => by
      rw [goodEntries, Bool.and_eq_true, Bool.and_eq_true, Bool.and_eq_true] at h
      rw [pathsOfE]
      intro hnil
      rcases List.append_eq_nil.mp hnil with ⟨h1, _⟩
      exact pathsOfVal_ne_nil v h.1.2 (List.map_eq_nil_iff.mp h1)

end

theorem pathsOfE_head : ∀ (es : List (String × JVal)) (pv : List String × String),
    pv ∈ pathsOfE es → ∃ k' p', pv.1 = k' :: p' ∧ k' ∈ es.map Prod.fst := by
  intro es
  induction es with
  | nil => intro pv hpv; cases hpv
  | cons e rest ih =>
      intro pv hpv
      obtain ⟨k, v⟩ := e
      rw [pathsOfE, List.mem_append] at hpv
      rcases hpv with hpv | hpv
      · obtain ⟨pv', _, hpe⟩ := List.mem_map.mp hpv
        exact ⟨k, pv'.1, by rw [← hpe], by simp⟩
      · obtain ⟨k', p', hp, hk⟩ := ih pv hpv
        exact ⟨k', p', hp, List.mem_cons_of_mem _ hk⟩

mutual

theorem pathsOfVal_nodup : ∀ (v : JVal), goodVal v = true →
    ((pathsOfVal v).map Prod.fst).Nodup
  | .str _, _ => by
      rw [pathsOfVal]
      simp
  | .obj es, h => by
      rw [goodVal, Bool.and_eq_true] at h
      rw [pathsOfVal]
      exact pathsOfE_nodup es h.2

theorem pathsOfE_nodup : ∀ (es : List (String × JVal)), goodEntries es = true →
    ((pathsOfE es).map Prod.fst).Nodup
  | [], _ => by
      rw [pathsOfE]
      simp
  | (k, v) :: rest, h => by
      rw [goodEntries, Bool.and_eq_true, Bool.and_eq_true, Bool.and_eq_true,
        decide_eq_true_eq] at h
      obtain ⟨⟨⟨_, hknotin⟩, hgv⟩, hgrest⟩ := h
      rw [pathsOfE, List.map_append, List.nodup_append]
      refine ⟨?_, pathsOfE_nodup rest hgrest, ?_⟩
      · rw [List.map_map]
        have hcomp : (Prod.fst ∘ fun pv : List String × String => (k :: pv.1, pv.2)) =
            (fun p => k :: p) ∘ Prod.fst := rfl
        rw [hcomp, ← List.map_map]
        exact (pathsOfVal_nodup v hgv).map (fun a b hab => by injection hab)
      · intro q hq hq'
        rw [List.map_map] at hq
        obtain ⟨pv', _, hpe⟩ := List.mem_map.mp hq
        obtain ⟨pv₂, hpv₂, hpe₂⟩ := List.mem_map.mp hq'
        obtain ⟨k', p', hp', hk'⟩ := pathsOfE_head rest pv₂ hpv₂
        have h6 : k :: pv'.1 = q := hpe
        have h7 : k :: pv'.1 = k' :: p' := by
          rw [h6, ← hpe₂, hp']
        have h8 : k = k' := by injection h7
        exact hknotin (h8 ▸ hk')

end

theorem joinKey_inj (pk : String) {p q : List String} (hp : p ≠ []) (hq : q ≠ [])
    (hps : ∀ s ∈ p, '.' ∉ s.data) (hqs : ∀ s ∈ q, '.' ∉ s.data)
    (h : joinKey pk p = joinKey pk q) : p = q := by
  by_cases hpk : pk = ""
  · rw [hpk, joinKey_empty, joinKey_empty] at h
    rw [← pySplit_dotJoin p hp hps, ← pySplit_dotJoin q hq hqs, h]
  · have h2 := congrArg String.data h
    rw [joinKey_data pk p hpk, joinKey_data pk q hpk] at h2
    have h3 : '.' :: (dotJoin p).data = '.' :: (dotJoin q).data :=
      List.append_cancel_left h2
    injection h3 with _ h4
    have h5 : dotJoin p = dotJoin q := str_data_inj h4
    rw [← pySplit_dotJoin p hp hps, ← pySplit_dotJoin q hq hqs, h5]

theorem flattenKeys_nodup (es : List (String × JVal)) (pk : String)
    (hgood : goodEntries es = true) :
    (((pathsOfE es).map (fun pv => (joinKey pk pv.1, pv.2))).map Prod.fst).Nodup := by
  rw [List.map_map]
  have hcomp : (Prod.fst ∘ fun pv : List String × String => (joinKey pk pv.1, pv.2)) =
      (joinKey pk) ∘ Prod.fst := rfl
  rw [hcomp, ← List.map_map]
  apply List.Nodup.map_on ?_ (pathsOfE_nodup es hgood)
  intro x hx y hy hxy
  obtain ⟨pvx, hpvx, hxe⟩ := List.mem_map.mp hx
  obtain ⟨pvy, hpvy, hye⟩ := List.mem_map.mp hy
  have hgx := pathsOfE_good es hgood pvx hpvx
  have hgy := pathsOfE_good es hgood pvy hpvy
  subst hxe
  subst hye
  exact joinKey_inj pk hgx.1.1 hgy.1.1 (fun s hs => (hgx.1.2 s hs).2)
    (fun s hs => (hgy.1.2 s hs).2) hxy

theorem flatten_items_eq : ∀ (es : List (String × JVal)) (pk : String),
    goodEntries es = true →
    flatten_items es pk = (pathsOfE es).map (fun pv => (joinKey pk pv.1, pv.2))
  | [], pk, _ => by simp [flatten_items, pathsOfE]
  | (k, JVal.str s) :: rest, pk, h => by
      rw [goodEntries, Bool.and_eq_true, Bool.and_eq_true, Bool.and_eq_true,
        keyOk, Bool.and_eq_true, decide_eq_true_eq, decide_eq_true_eq,
        decide_eq_true_eq] at h
      obtain ⟨⟨⟨⟨hkne, _⟩, _⟩, _⟩, hgrest⟩ := h
      have hnewKey : (if pk = "" then k else pk ++ "." ++ k) = joinKey pk [k] := by
        rw [joinKey, dotJoin_single]
      rw [flatten_items, pathsOfE, List.map_append, flatten_items_eq rest pk hgrest,
        pathsOfVal]
      simp [hnewKey]
  | (k, JVal.obj es2) :: rest, pk, h => by
      rw [goodEntries, Bool.and_eq_true, Bool.and_eq_true, Bool.and_eq_true,
        keyOk, Bool.and_eq_true, decide_eq_true_eq, decide_eq_true_eq,
        decide_eq_true_eq] at h
      obtain ⟨⟨⟨⟨hkne, _⟩, _⟩, hgv⟩, hgrest⟩ := h
      have hnewKey : (if pk = "" then k else pk ++ "." ++ k) = joinKey pk [k] := by
        rw [joinKey, dotJoin_single]
      have hggE : goodEntries es2 = true := by
        rw [goodVal, Bool.and_eq_true] at hgv
        exact hgv.2
      rw [flatten_items, pathsOfE, List.map_append, flatten_items_eq rest pk hgrest]
      rw [hnewKey, flatten_items_eq es2 (joinKey pk [k]) hggE,
        pyDictOfList_eq (flattenKeys_nodup es2 (joinKey pk [k]) hggE)]
      congr 1
      rw [pathsOfVal, List.map_map]
      apply List.map_congr_left
      intro pv hpv
      have hg := pathsOfE_good es2 hggE pv hpv
      show (joinKey (joinKey pk [k]) pv.1, pv.2) = (joinKey pk (k :: pv.1), pv.2)
      rw [joinKey_cons pk k pv.1 hkne hg.1.1]
termination_by es _ _ => sizeOf es

theorem assocUpdate_self {α : Type} {T : List (String × α)} {k : String} {v : α}
    (h : assocFind T k = some v) : assocUpdate T k v = T := by
  induction T with
  | nil => cases h
  | cons e rest ih =>
      obtain ⟨k', v'⟩ := e
      rw [assocFind] at h
      rw [assocUpdate]
      by_cases hk : k' = k
      · rw [if_pos hk] at h
        injection h with hv
        rw [if_pos hk, hk, hv]
      · rw [if_neg hk] at h
        rw [if_neg hk, ih h]

theorem assocFind_assocUpdate {α : Type} (T : List (String × α)) (k : String) (v : α) :
    assocFind (assocUpdate T k v) k = some v := by
  induction T with
  | nil => rw [assocUpdate, assocFind, if_pos rfl]
  | cons e rest ih =>
      obtain ⟨k', v'⟩ := e
      rw [assocUpdate]
      by_cases hk : k' = k
      · rw [if_pos hk, assocFind, if_pos rfl]
      · rw [if_neg hk, assocFind, if_neg hk]
        exact ih

theorem assocUpdate_assocUpdate {α : Type} (T : List (String × α)) (k : String) (v w : α) :
    assocUpdate (assocUpdate T k v) k w = assocUpdate T k w := by
  induction T with
  | nil => simp [assocUpdate]
  | cons e rest ih =>
      obtain ⟨k', v'⟩ := e
      by_cases hk : k' = k
      · rw [assocUpdate, if_pos hk, assocUpdate, if_pos rfl, assocUpdate, if_pos hk]
      · rw [assocUpdate, if_neg hk, assocUpdate, if_neg hk, assocUpdate, if_neg hk, ih]

theorem foldInsert_append (l₁ l₂ : List (List String × String)) :
    ∀ T, foldInsert T (l₁ ++ l₂) =
      match foldInsert T l₁ with
      | none => none
      | some T' => foldInsert T' l₂ := by
  induction l₁ with
  | nil => intro T; rfl
  | cons pv rest ih =>
      intro T
      rw [List.cons_append, foldInsert, foldInsert]
      rcases insertPath T pv with _ | T'
      · rfl
      · exact ih T'

theorem foldInsert_cons_paths : ∀ (ps : List (List String × String))
    (T S : List (String × JVal)) (k : String),
    assocFind T k = some (JVal.obj S) →
    (∀ pv ∈ ps, pv.1 ≠ [] ∧ pv.2 ≠ "") →
    foldInsert T (ps.map (fun pv => (k :: pv.1, pv.2))) =
      Option.map (fun S' => assocUpdate T k (JVal.obj S')) (foldInsert S ps) := by
  intro ps
  induction ps with
  | nil =>
      intro T S k hfind _
      rw [List.map_nil, foldInsert, foldInsert, Option.map_some', assocUpdate_self hfind]
  | cons pv rest ih =>
      intro T S k hfind hgood
      obtain ⟨p, val⟩ := pv
      obtain ⟨hp, hv⟩ := hgood (p, val) (List.mem_cons_self _ _)
      rcases p with _ | ⟨p₁, ps₁⟩
      · exact absurd rfl hp
      rw [List.map_cons, foldInsert, foldInsert]
      rw [show insertPath T (k :: p₁ :: ps₁, val) = setPath T k (p₁ :: ps₁) val from by
        rw [insertPath, if_neg hv]]
      rw [show insertPath S (p₁ :: ps₁, val) = setPath S p₁ ps₁ val from by
        rw [insertPath, if_neg hv]]
      rw [setPath_cons_obj hfind]
      rcases hset : setPath S p₁ ps₁ val with _ | S₁
      · rfl
      · show foldInsert (assocUpdate T k (JVal.obj S₁))
            (List.map (fun pv => (k :: pv.1, pv.2)) rest) =
          Option.map (fun S' => assocUpdate T k (JVal.obj S')) (foldInsert S₁ rest)
        rw [ih (assocUpdate T k (JVal.obj S₁)) S₁ k (assocFind_assocUpdate T k _)
          (fun pv' hpv' => hgood pv' (List.mem_cons_of_mem _ hpv'))]
        cases foldInsert S₁ rest with
        | none => rfl
        | some S₂ => simp [assocUpdate_assocUpdate]

theorem foldInsert_pathsOf : ∀ (es : List (String × JVal)) (T : List (String × JVal)),
    goodEntries es = true →
    (∀ k' ∈ es.map Prod.fst, k' ∉ T.map Prod.fst) →
    foldInsert T (pathsOfE es) = some (T ++ es)
  | [], T, _, _ => by
      rw [pathsOfE, foldInsert, List.append_nil]
  | (k, JVal.str s) :: rest, T, h, hdis => by
      rw [goodEntries, Bool.and_eq_true, Bool.and_eq_true, Bool.and_eq_true,
        keyOk, Bool.and_eq_true, decide_eq_true_eq, decide_eq_true_eq,
        decide_eq_true_eq] at h
      obtain ⟨⟨⟨⟨hkne, _⟩, hknotin⟩, hgv⟩, hgrest⟩ := h
      rw [goodVal, Bool.and_eq_true, decide_eq_true_eq, decide_eq_true_eq] at hgv
      obtain ⟨hsne, hstrip⟩ := hgv
      rw [pathsOfE, pathsOfVal]
      simp only [List.map_cons, List.map_nil, List.singleton_append]
      rw [foldInsert]
      rw [show insertPath T ([k], pyStrip s) = some (assocUpdate T k (JVal.str (pyStrip s)))
        from by
          rw [insertPath, if_neg (by rw [hstrip]; exact hsne)]
          rfl]
      show foldInsert (assocUpdate T k (JVal.str (pyStrip s))) (pathsOfE rest) =
        some (T ++ (k, JVal.str s) :: rest)
      rw [hstrip, assocUpdate_not_mem (hdis k (by simp))]
      rw [foldInsert_pathsOf rest (T ++ [(k, JVal.str s)]) hgrest (fun k' hk' => by
        rw [List.map_append, List.mem_append]
        rintro (hmem | hmem)
        · exact hdis k' (List.mem_cons_of_mem _ hk') hmem
        · simp only [List.map_cons, List.map_nil, List.mem_singleton] at hmem
          exact hknotin (hmem ▸ hk'))]
      simp
  | (k, JVal.obj es2) :: rest, T, h, hdis => by
      rw [goodEntries, Bool.and_eq_true, Bool.and_eq_true, Bool.and_eq_true,
        keyOk, Bool.and_eq_true, decide_eq_true_eq, decide_eq_true_eq,
        decide_eq_true_eq] at h
      obtain ⟨⟨⟨⟨hkne, _⟩, hknotin⟩, hgv⟩, hgrest⟩ := h
      rw [goodVal, Bool.and_eq_true, decide_eq_true_eq] at hgv
      obtain ⟨hes2ne, hggE⟩ := hgv
      rw [pathsOfE, pathsOfVal, foldInsert_append]
      have hne : pathsOfE es2 ≠ [] := by
        rcases es2 with _ | ⟨e2, r2⟩
        · exact absurd rfl hes2ne
        · exact pathsOfE_cons_ne_nil e2 r2 hggE
      rcases hps : pathsOfE es2 with _ | ⟨pv₀, ps'⟩
      · exact absurd hps hne
      obtain ⟨p0, v0⟩ := pv₀
      have hg0 := pathsOfE_good es2 hggE (p0, v0) (by rw [hps]; exact List.mem_cons_self _ _)
      obtain ⟨⟨hp0ne, _⟩, hv0⟩ := hg0
      rcases p0 with _ | ⟨p₁, ps₁⟩
      · exact absurd rfl hp0ne
      rw [List.map_cons, foldInsert]
      rw [show insertPath T (k :: p₁ :: ps₁, v0) = setPath T k (p₁ :: ps₁) v0 from by
        rw [insertPath, if_neg hv0]]
      have hfindT : assocFind T k = none := assocFind_eq_none (hdis k (by simp))
      obtain ⟨sub, hsub⟩ := setPath_nil_tree ps₁ p₁ v0
      rw [setPath_cons_none hfindT, hsub]
      show (match foldInsert (assocUpdate T k (JVal.obj sub))
          (ps'.map (fun pv => (k :: pv.1, pv.2))) with
        | none => none
        | some T' => foldInsert T' (pathsOfE rest)) = some (T ++ (k, JVal.obj es2) :: rest)
      rw [foldInsert_cons_paths ps' (assocUpdate T k (JVal.obj sub)) sub k
        (assocFind_assocUpdate T k _)
        (fun pv' hpv' => by
          have hgpv := pathsOfE_good es2 hggE pv' (by
            rw [hps]
            exact List.mem_cons_of_mem _ hpv')
          exact ⟨hgpv.1.1, hgpv.2⟩)]
      have hrec := foldInsert_pathsOf es2 [] hggE (by simp)
      rw [hps, foldInsert,
        show insertPath [] (p₁ :: ps₁, v0) = some sub from by
          rw [insertPath, if_neg hv0]
          exact hsub] at hrec
      have hrec2 : foldInsert sub ps' = some es2 := hrec
      rw [hrec2, Option.map_some', assocUpdate_assocUpdate,
        assocUpdate_not_mem (hdis k (by simp))]
      show foldInsert (T ++ [(k, JVal.obj es2)]) (pathsOfE rest) =
        some (T ++ (k, JVal.obj es2) :: rest)
      rw [foldInsert_pathsOf rest (T ++ [(k, JVal.obj es2)]) hgrest (fun k' hk' => by
        rw [List.map_append, List.mem_append]
        rintro (hmem | hmem)
        · exact hdis k' (List.mem_cons_of_mem _ hk') hmem
        · simp only [List.map_cons, List.map_nil, List.mem_singleton] at hmem
          exact hknotin (hmem ▸ hk'))]
      simp
termination_by es _ _ _ => sizeOf es

theorem unflattenAux_map_join : ∀ (ps : List (List String × String)) (T : List (String × JVal)),
    (∀ pv ∈ ps, pv.1 ≠ [] ∧ ∀ s ∈ pv.1, '.' ∉ s.data) →
    unflattenAux T (ps.map (fun pv => (joinKey "" pv.1, pv.2))) = foldInsert T ps := by
  intro ps
  induction ps with
  | nil =>
      intro T _
      rfl
  | cons pv rest ih =>
      intro T hgood
      obtain ⟨p, v⟩ := pv
      obtain ⟨hpne, hpdot⟩ := hgood (p, v) (List.mem_cons_self _ _)
      have hrest : ∀ pv' ∈ rest, pv'.1 ≠ [] ∧ ∀ s ∈ pv'.1, '.' ∉ s.data :=
        fun pv' hpv' => hgood pv' (List.mem_cons_of_mem _ hpv')
      rw [List.map_cons, unflattenAux, foldInsert]
      by_cases hv : v = ""
      · rw [if_pos hv,
          show insertPath T (p, v) = some T from by rw [insertPath, if_pos hv]]
        exact ih T hrest
      · rw [if_neg hv]
        have hsplit : pySplit (joinKey "" p) = p := by
          rw [joinKey_empty]
          exact pySplit_dotJoin p hpne hpdot
        rcases hp : p with _ | ⟨p₁, ps₁⟩
        · exact absurd hp hpne
        subst hp
        rw [hsplit]
        rw [show insertPath T (p₁ :: ps₁, v) = setPath T p₁ ps₁ v from by
          rw [insertPath, if_neg hv]]
        show (match setPath T p₁ ps₁ v with
            | none => none
            | some acc' => unflattenAux acc' (rest.map (fun pv => (joinKey "" pv.1, pv.2)))) =
          (match setPath T p₁ ps₁ v with
            | none => none
            | some T' => foldInsert T' rest)
        rcases setPath T p₁ ps₁ v with _ | T'
        · rfl
        · exact ih T' hrest

set_option maxRecDepth 40000 in
unseal flatten_items in
/-- C1 counterexample: the round trip is not the identity on every document
whose leaves are all strings and whose keys have no prefix conflict: the
one-leaf document `{"a": ""}` (a single key, hence no `'.'`-prefix relation
between distinct keys) flattens to `{"a": ""}`, whose empty value
`unflatten_dict` then drops, returning the empty document. -/
theorem C1_counterexample :
    unflatten_dict (flatten_dict [("a", JVal.str "")] "") = some [] ∧
    (some [] : Option (List (String × JVal))) ≠ some [("a", JVal.str "")] := by
  constructor
  · decide
  · decide

/-- C1 (amended): the round trip `unflatten_dict (flatten_dict doc)` is the
identity on every hierarchical document whose segment names are non-empty,
contain no `'.'` and are unique within each object, whose nested objects are
non-empty, and whose leaves are non-empty strings unchanged by the quote
strip.  (Leaves that are empty or carry enclosing quotes, empty nested
objects, and dotted segment names are each lost or transformed by the round
trip, so the original claim's hypotheses do not suffice.) -/
theorem C1_roundtrip (d : List (String × JVal)) (h : goodEntries d = true) :
    unflatten_dict (flatten_dict d "") = some d := by
  rw [flatten_dict, flatten_items_eq d "" h, pyDictOfList_eq (flattenKeys_nodup d "" h)]
  rw [unflatten_dict, unflattenAux_map_join (pathsOfE d) [] (fun pv hpv => by
    have hg := pathsOfE_good d h pv hpv
    exact ⟨hg.1.1, fun s hs => (hg.1.2 s hs).2⟩)]
  rw [foldInsert_pathsOf d [] h (by simp)]
  rfl

/-- C1 witness: the amended round trip applied to a two-language-key
document with one nested object. -/
theorem C1_roundtrip_witness :
    goodEntries [("a", JVal.obj [("b", JVal.str "x")]), ("c", JVal.str "y")] = true ∧
    unflatten_dict (flatten_dict [("a", JVal.obj [("b", JVal.str "x")]), ("c", JVal.str "y")] "")
      = some [("a", JVal.obj [("b", JVal.str "x")]), ("c", JVal.str "y")] :=
  ⟨by decide, C1_roundtrip _ (by decide)⟩

set_option maxRecDepth 80000 in
unseal List.merge List.mergeSort in
/-- C8 witness: the row statement applied to the spec's example. -/
theorem C8_rows_witness :
    ((create_excel_rows [("en-US", [("a.b", "1"), ("z", "2")]), ("fr-FR", [("a.c", "3")])]
        "en-US").map Prod.fst).Pairwise (· ≤ ·) ∧
    (create_excel_rows [("en-US", [("a.b", "1"), ("z", "2")]), ("fr-FR", [("a.c", "3")])]
        "en-US").map Prod.fst = ["a.b", "a.c", "z"] :=
  ⟨(C8_rows [("en-US", [("a.b", "1"), ("z", "2")]), ("fr-FR", [("a.c", "3")])] "en-US"
      (by decide)).1,
   (C8_rows [("en-US", [("a.b", "1"), ("z", "2")]), ("fr-FR", [("a.c", "3")])] "en-US"
      (by decide)).2.2.2.2⟩

end TC
